import Mathlib

/-!
Verification of `mutablerecords/records.py` (chainreactionmfg/mutablerecords).

Shallow embedding: Python values that can appear as record fields or
optional-field defaults are modelled by the inductive `Val`; mutable heap
objects (lists, record instances, function objects) carry an allocation
identifier `id` modelling Python object identity, and every operation that
allocates threads an allocation counter.  Record *types* (the classes
synthesised by `RecordMeta.__new__`) are modelled by the structure `RType`;
Python dicts are modelled as insertion-ordered association lists
(`List (String × Val)`), matching CPython's ordered-dict semantics.
Fallible Python code (raising exceptions) is modelled with `Except`.
-/

namespace MutableRecords

/-- Python values that can be record fields or defaults.

* `list id elems` — a mutable list object with identity `id`;
* `listFactory` — the builtin `list`, the canonical zero-argument callable
  default (it allocates a fresh empty list on each call);
* `lam id body` — a user zero-argument callable (function object with
  identity `id`) returning the fixed existing object `body` when invoked;
* `inst id cname req opt fields` — a record instance: its type's name,
  required tuple and optional dict (the data `type(x)` carries), and the
  instance's slot storage as an association list. -/
inductive Val where
  | none
  | int (n : Int)
  | str (s : String)
  | bool (b : Bool)
  | list (id : Nat) (elems : List Val)
  | listFactory
  | lam (id : Nat) (body : Val)
  | inst (id : Nat) (cname : String) (req : List String) (opt : List (String × Val)) (fields : List (String × Val))

/-- A Python record *type*: the data `RecordMeta.__new__` stores on the class.
`required_attributes` is the tuple of required field names (ordered);
`optional_attributes` is the dict of optional field names to defaults,
modelled as an insertion-ordered association list. -/
structure RType where
  name : String
  required_attributes : List String
  optional_attributes : List (String × Val)

/-- Ordered-dict lookup (first matching key). -/
def flookup : List (String × Val) → String → Option Val
  | [], _ => Option.none
  | (k, v) :: rest, a => if k = a then some v else flookup rest a

/-- `k in d` for a Python dict. -/
def hasKey (d : List (String × Val)) (k : String) : Bool :=
  d.any (fun kv => kv.1 == k)

/-- `d[k] = v` on a Python dict: replace in place if the key exists
(keeping its position, as CPython does), else append. -/
def insertKV : List (String × Val) → String → Val → List (String × Val)
  | [], k, v => [(k, v)]
  | (k', w) :: rest, k, v =>
    if k' = k then (k', v) :: rest else (k', w) :: insertKV rest k v

/-- `d.update(new)` on a Python dict. -/
def dictUpdate (d new : List (String × Val)) : List (String × Val) :=
  new.foldl (fun acc kv => insertKV acc kv.1 kv.2) d

/-- `d.pop(k)` (the removal part; the looked-up value is taken separately). -/
def removeKey (d : List (String × Val)) (k : String) : List (String × Val) :=
  d.filter (fun kv => ¬ (kv.1 = k))

/-- `list(d.keys())`. -/
def dkeys (d : List (String × Val)) : List String := d.map Prod.fst

/-- `type(x).__slots__`: the required tuple followed by the optional names. -/
def RType.slots (ty : RType) : List String :=
  ty.required_attributes ++ dkeys ty.optional_attributes

/-- Python `callable(value)` restricted to our value universe. -/
def callable : Val → Bool
  | .listFactory => true
  | .lam _ _ => true
  | _ => false

/-- Invoking a zero-argument callable default, threading the allocation
counter: the builtin `list` returns a *fresh* empty list; a constant-
returning closure returns the same (shared) object every time.  On a
non-callable the source never invokes, so the value is returned unchanged. -/
def invoke (v : Val) (ctr : Nat) : Val × Nat :=
  match v with
  | .listFactory => (.list ctr [], ctr + 1)
  | .lam _ b => (b, ctr)
  | other => (other, ctr)

/-- The exceptions `RecordClass.__init__` (and slot assignment) can raise.
`invalidArguments` is the `ValueError('Invalid arguments', ...)` at
records.py:38; `conflict` the `TypeError` at records.py:44; `arity` the
`TypeError('__init__ takes exactly ...')` at records.py:51;
`attributeError` is CPython's `AttributeError` from `object.__setattr__`
on a name that is not among the class's slots. -/
inductive InitErr where
  | invalidArguments
  | conflict
  | arity
  | attributeError
deriving DecidableEq, Repr

/-- `object.__setattr__(self, slot, arg)` for each binding in turn, on a
`__slots__`-only class: assigning a name outside the slot set raises
`AttributeError`. -/
def setattrs (slots : List String) (fields : List (String × Val)) :
    List (String × Val) → Except InitErr (List (String × Val))
  | [] => .ok fields
  | (k, v) :: rest =>
    if slots.contains k then setattrs slots (insertKV fields k v) rest
    else .error .attributeError

/-- The defaults loop of `RecordClass.__init__` (records.py:59-64): for each
optional attribute not supplied as a keyword, bind the default, invoking it
first when it is callable.  (These names are always in `__slots__`, so the
`object.__setattr__` there cannot fail.) -/
def setDefaults (kwargKeys : List String) :
    List (String × Val) → List (String × Val) → Nat → List (String × Val) × Nat
  | fields, [], ctr => (fields, ctr)
  | fields, (attr, value) :: rest, ctr =>
    if kwargKeys.contains attr then setDefaults kwargKeys fields rest ctr
    else
      setDefaults kwargKeys
        (insertKV fields attr (if callable value then (invoke value ctr).1 else value))
        rest
        (if callable value then (invoke value ctr).2 else ctr)

/-- `RecordClass.__init__` (records.py:34-64), plus the instance allocation
done by `type.__call__`: `init ty args kwargs ctr` either raises or returns
the new instance together with the advanced allocation counter. -/
def init (ty : RType) (args : List Val) (kwargs : List (String × Val)) (ctr : Nat) :
    Except InitErr (Val × Nat) :=
  let req := ty.required_attributes
  -- First, check for the maximum number of arguments.
  if args.length + kwargs.length < req.length then .error .invalidArguments
  else
  -- Second, check if there are any overlapping arguments.
  if (dkeys kwargs).filter (fun k => (req.take args.length).contains k) ≠ [] then
    .error .conflict
  else
  -- Third, check all required attributes are provided.
  if args.length + ((dkeys kwargs).filter (fun k => req.contains k)).dedup.length
      ≠ req.length then
    .error .arity
  else
    match setattrs ty.slots [] (req.zip args ++ kwargs) with
    | .error e => .error e
    | .ok fs =>
      .ok (.inst ctr ty.name ty.required_attributes ty.optional_attributes
             (setDefaults (dkeys kwargs) fs ty.optional_attributes (ctr + 1)).1,
           (setDefaults (dkeys kwargs) fs ty.optional_attributes (ctr + 1)).2)

/-- `getattr(x, attr)` on a record instance. -/
def getattr (x : Val) (attr : String) : Option Val :=
  match x with
  | .inst _ _ _ _ fields => flookup fields attr
  | _ => Option.none

/-- The two `assert` failures in `RecordMeta.__new__` (records.py:127,130). -/
inductive DeclErr where
  | requiredClash
  | optionalClash
deriving DecidableEq, Repr

/-- The mutable state of the bases loop in `RecordMeta.__new__`:
the accumulating `required_attributes` list, `attrs['optional_attributes']`,
and the remaining plain entries of the class dict `attrs` (class-body
assignments such as `a = 10`; entries are `pop`ped as they are consumed). -/
structure MetaState where
  required : List String
  optional : List (String × Val)
  plain : List (String × Val)

/-- One promotion step (records.py:139-141): remove the first occurrence of
`attr` from the required list, add it to the optional dict with the value
`attrs.pop(attr)`. -/
def promoteStep (st : MetaState) (attr : String) : MetaState :=
  match flookup st.plain attr with
  | some v =>
    { required := st.required.erase attr,
      optional := insertKV st.optional attr v,
      plain := removeKey st.plain attr }
  | Option.none => st

/-- One optional-default override step (records.py:145-146):
`attrs['optional_attributes'][attr] = attrs.pop(attr)`. -/
def overrideStep (st : MetaState) (attr : String) : MetaState :=
  match flookup st.plain attr with
  | some v =>
    { st with optional := insertKV st.optional attr v,
              plain := removeKey st.plain attr }
  | Option.none => st

/-- The body of the `for base in bases` loop of `RecordMeta.__new__`
(records.py:122-146).  Python iterates `provided` as a set; we iterate the
same elements in the base's declaration order, which yields the same final
state because each element is handled exactly once and the per-element
updates touch distinct keys. -/
def metaBaseStep (st : MetaState) (base : RType) : Except DeclErr MetaState :=
  -- Check for repeated attributes first.
  if st.required.filter (fun a => base.required_attributes.contains a) ≠ [] then
    .error .requiredClash
  else if (dkeys st.optional).filter
      (fun a => (dkeys base.optional_attributes).contains a) ≠ [] then
    .error .optionalClash
  else
    let st1 : MetaState :=
      { st with required := st.required ++ base.required_attributes,
                optional := dictUpdate st.optional base.optional_attributes }
    -- Promotion: class-dict values for a base's required attributes.
    let provided := (base.required_attributes.filter (fun a => hasKey st1.plain a)).dedup
    let st2 := provided.foldl promoteStep st1
    -- Override: class-dict values for a base's optional attributes.
    let providedOpt :=
      ((dkeys base.optional_attributes).filter (fun a => hasKey st2.plain a)).dedup
    .ok (providedOpt.foldl overrideStep st2)

/-- `RecordMeta.__new__` (records.py:119-152).  `bases` are the record
bases (every base modelled is a `RecordClass` subclass); `declReq` and
`declOpt` are the class body's `required_attributes`/`optional_attributes`
declarations; `plainAttrs` the remaining class-body assignments. -/
def recordMetaNew (name : String) (bases : List RType) (declReq : List String)
    (declOpt : List (String × Val)) (plainAttrs : List (String × Val)) :
    Except DeclErr RType :=
  match bases.foldlM metaBaseStep ⟨[], declOpt, plainAttrs⟩ with
  | .error e => .error e
  | .ok st => .ok ⟨name, st.required ++ declReq, st.optional⟩

/-- The `RecordClass` base itself (records.py:29-32): empty required tuple,
empty optional dict. -/
def RecordClassBase : RType := ⟨"RecordClass", [], []⟩

/-- The `Record` factory (records.py:178-189): synthesises a type with
bases `(RecordClass,)` and the given declarations. -/
def Record (cls_name : String) (required_attributes : List String)
    (optional_attributes : List (String × Val)) : Except DeclErr RType :=
  recordMetaNew cls_name [RecordClassBase] required_attributes optional_attributes []

theorem flookup_sizeOf_lt {d : List (String × Val)} {a : String} {v : Val}
    (h : flookup d a = some v) : sizeOf v < sizeOf d := by
  induction d with
  | nil => simp [flookup] at h
  | cons kv rest ih =>
    obtain ⟨k, w⟩ := kv
    simp only [flookup] at h
    split at h
    · cases h; simp; omega
    · have := ih h; simp; omega

mutual

/-- Python `==` on our value universe.  Numbers, strings and booleans
compare structurally; lists compare element-wise (`list.__eq__`); function
objects compare by identity; record instances compare by
`RecordClass.__eq__` (records.py:76-84): identity, or type equality (which
by `RecordMeta.__eq__`, records.py:158-164, is *structural*: equal required
tuples and equal optional dicts) together with field-wise equality over
`self.__slots__`. -/
def valEq : Val → Val → Bool
  | .none, .none => true
  | .int m, .int n => m == n
  | .str s, .str t => s == t
  | .bool a, .bool b => a == b
  | .list _ xs, .list _ ys => valEqList xs ys
  | .listFactory, .listFactory => true
  | .lam i _, .lam j _ => i == j
  | .inst i1 _ r1 o1 f1, .inst i2 _ r2 o2 f2 =>
      i1 == i2 || (r1 == r2 && dictEqB o1 o2 && fieldsEqOn f1 f2 (r1 ++ dkeys o1))
  | _, _ => false
termination_by v w => (sizeOf v + sizeOf w, 1)

/-- `list.__eq__`: element-wise `==`. -/
def valEqList : List Val → List Val → Bool
  | [], [] => true
  | x :: xs, y :: ys => valEq x y && valEqList xs ys
  | _, _ => false
termination_by xs ys => (sizeOf xs + sizeOf ys, 0)

/-- Python `dict.__eq__`: same number of keys and every entry of `a` is
present in `b` with a `==` value (the dicts we build have distinct keys, so
this is exactly CPython's dict equality). -/
def dictEqB (a b : List (String × Val)) : Bool :=
  a.length == b.length && dictIncl a b
termination_by (sizeOf a + sizeOf b, 1)

def dictIncl : List (String × Val) → List (String × Val) → Bool
  | [], _ => true
  | (k, v) :: rest, b => lookupEqB b k v && dictIncl rest b
termination_by a b => (sizeOf a + sizeOf b, 0)

def lookupEqB : List (String × Val) → String → Val → Bool
  | [], _, _ => false
  | (k', w) :: rest, k, v => if k' = k then valEq v w else lookupEqB rest k v
termination_by b _ v => (sizeOf v + sizeOf b, 0)

/-- `RecordClass._isequal_fields` (records.py:82-84) over an attribute
list: `getattr` both sides and compare with `==`.  A missing slot would
raise `AttributeError` in Python; on the well-formed instances we build all
slots are always set, and we model the (unreachable) missing case as
inequality. -/
def fieldsEqOn (f1 f2 : List (String × Val)) : List String → Bool
  | [] => true
  | a :: rest =>
    match h1 : flookup f1 a, h2 : flookup f2 a with
    | some v, some w => valEq v w && fieldsEqOn f1 f2 rest
    | _, _ => false
termination_by attrs => (sizeOf f1 + sizeOf f2, attrs.length)
decreasing_by
· exact Prod.Lex.left _ _
    (by have := flookup_sizeOf_lt h1; have := flookup_sizeOf_lt h2; omega)
· exact Prod.Lex.right _ (by simp)

end

/-- `isinstance(value, RecordClass)`. -/
def isInst : Val → Bool
  | .inst _ _ _ _ _ => true
  | _ => false

/-- The object identity of a record instance. -/
def instId : Val → Option Nat
  | .inst i _ _ _ _ => some i
  | _ => Option.none

/-- `type(x)` of a record instance. -/
def typeOf : Val → Option RType
  | .inst _ cname req opt _ => some ⟨cname, req, opt⟩
  | _ => Option.none

/-- `copy.copy(value)` (shallow) on our value universe: a list is cloned
into a fresh object sharing its element references; numbers, strings,
booleans, `None` and function objects are returned as the same object
(CPython returns immutables and callables unchanged).  `CopyRecord` never
applies `copy.copy` to a record instance (the `isinstance` branch handles
those), so the `inst` case is unreachable from it. -/
def copyVal (v : Val) (ctr : Nat) : Val × Nat :=
  match v with
  | .list _ xs => (.list ctr xs, ctr + 1)
  | other => (other, ctr)

mutual

/-- `CopyRecord` (records.py:198-220): copy a record and each of its
fields; record-valued fields are recursively `CopyRecord`ed, other values
shallow-copied, override values used verbatim; a new instance of the same
type is built from the resulting keyword dict.  On a non-record argument
the `record.__slots__` access raises `AttributeError`. -/
def CopyRecord (record : Val) (field_overrides : List (String × Val)) (ctr : Nat) :
    Except InitErr (Val × Nat) :=
  match record with
  | .inst _ cname req opt flds =>
    match copyFields flds (req ++ dkeys opt) field_overrides ctr with
    | .error e => .error e
    | .ok (fields, c) => init ⟨cname, req, opt⟩ [] fields c
  | _ => .error .attributeError
termination_by (sizeOf record, 0)

/-- The `for field in record.__slots__` loop of `CopyRecord`
(records.py:209-218); `fields` starts as the (aliased) overrides dict and
each non-overridden slot's copied value is added to it. -/
def copyFields (flds : List (String × Val)) :
    List String → List (String × Val) → Nat →
    Except InitErr (List (String × Val) × Nat)
  | [], fields, ctr => .ok (fields, ctr)
  | f :: rest, fields, ctr =>
    if hasKey fields f then copyFields flds rest fields ctr
    else
      match h : flookup flds f with
      | Option.none => .error .attributeError
      | some value =>
        match (if isInst value then CopyRecord value [] ctr
               else .ok (copyVal value ctr)) with
        | .error e => .error e
        | .ok (new_value, c) => copyFields flds rest (insertKV fields f new_value) c
termination_by slots _ _ => (sizeOf flds, slots.length)
decreasing_by
· exact Prod.Lex.right _ (by simp)
· exact Prod.Lex.left _ _ (by have := flookup_sizeOf_lt h; omega)
· exact Prod.Lex.right _ (by simp)

end

/-- `RecordClass.__getstate__` (records.py:94-96): the dict mapping each
slot of `type(self)` to its current value. -/
def getstate (x : Val) : Option (List (String × Val)) :=
  match x with
  | .inst _ _ req opt flds =>
    (req ++ dkeys opt).mapM (fun a => (flookup flds a).map (fun v => (a, v)))
  | _ => Option.none

/-- `RecordClass.__setstate__` (records.py:98-101).  Its body iterates
`state.iteritems()`; the source targets Python 3 (its shebang is
`#!/usr/bin/env python3` and setup.py declares `Programming Language ::
Python :: 3`), and Python 3 dicts have no attribute `iteritems`, so the
lookup raises `AttributeError` before any field is written. -/
def setstate (_x : Val) (_state : List (String × Val)) : Except InitErr Val :=
  .error .attributeError

/-- `RecordMeta.__eq__` (records.py:158-164) between two record types:
`cls is other or (required tuples equal and optional dicts equal)`.  The
identity shortcut cannot change the outcome (an identical type is
structurally identical to itself), so the model compares structurally. -/
def typeEqB (t u : RType) : Bool :=
  t.required_attributes == u.required_attributes &&
    dictEqB t.optional_attributes u.optional_attributes

mutual

/-- Well-formed record instance: the slot list has no duplicate names, the
field map binds exactly the slots in slot order (the state every
successful construction establishes), and every field value is itself
well-formed. -/
def wfInst : Val → Bool
  | .inst _ _ req opt flds =>
    decide ((req ++ dkeys opt).Nodup) && dkeys flds == req ++ dkeys opt &&
      wfVals flds
  | _ => false
termination_by v => (sizeOf v, 1)

/-- Every value in a field map is well-formed (`wfVal`). -/
def wfVals : List (String × Val) → Bool
  | [] => true
  | (_, v) :: rest => wfVal v && wfVals rest
termination_by d => (sizeOf d, 0)

/-- Well-formed value: record instances inside it are well-formed. -/
def wfVal : Val → Bool
  | .list _ xs => wfValList xs
  | .inst i c req opt flds => wfInst (.inst i c req opt flds)
  | .lam _ b => wfVal b
  | _ => true
termination_by v => (sizeOf v, 2)

def wfValList : List Val → Bool
  | [] => true
  | x :: xs => wfVal x && wfValList xs
termination_by l => (sizeOf l, 0)

end

mutual

/-- Every object identity occurring in the value is `< c` (used to express
freshness of allocations). -/
def idsBelow : Val → Nat → Bool
  | .list i xs, c => decide (i < c) && idsBelowList xs c
  | .lam i b, c => decide (i < c) && idsBelow b c
  | .inst i _ _ opt flds, c =>
    decide (i < c) && idsBelowFields opt c && idsBelowFields flds c
  | _, _ => true
termination_by v _ => (sizeOf v, 1)

def idsBelowList : List Val → Nat → Bool
  | [], _ => true
  | x :: xs, c => idsBelow x c && idsBelowList xs c
termination_by l _ => (sizeOf l, 0)

def idsBelowFields : List (String × Val) → Nat → Bool
  | [], _ => true
  | (_, v) :: rest, c => idsBelow v c && idsBelowFields rest c
termination_by d _ => (sizeOf d, 0)

end

/-! ### Hashing

`HashableRecordClass.__hash__` (records.py:112-114) hashes the tuple of the
field hashes in `__slots__` order, and `RecordMeta.__hash__`
(records.py:166-169) hashes the pair of the required tuple and the
frozenset of the optional dict's items.  We replicate CPython's tuple-hash
algorithm (the xxHash-based one of Python ≥ 3.8) exactly, on unsigned
64-bit arithmetic. -/

def M64 : Nat := 2 ^ 64
def XXPRIME_1 : Nat := 11400714785074694791
def XXPRIME_2 : Nat := 14029467366897019727
def XXPRIME_5 : Nat := 2870177450012600261

/-- 64-bit rotate-left by 31: `(x << 31 | x >> 33) mod 2^64` (the two
summands occupy disjoint bit ranges, so `+` equals `|`). -/
def rotl31 (x : Nat) : Nat := ((x % M64) * 2 ^ 31 % M64 + x % M64 / 2 ^ 33) % M64

def tupleHashFold (acc : Nat) : List Nat → Nat
  | [] => acc
  | h :: t => tupleHashFold (rotl31 ((acc + h * XXPRIME_2) % M64) * XXPRIME_1 % M64) t

/-- CPython's `tuple.__hash__` on the (unsigned 64-bit) hashes of the
elements, returning an unsigned 64-bit result; CPython replaces the
reserved value `-1` exactly as mirrored here. -/
def pyTupleHash (hs : List Nat) : Nat :=
  let acc := (tupleHashFold XXPRIME_5 hs + ((hs.length : Nat) ^^^ (XXPRIME_5 ^^^ 3527539))) % M64
  if acc = M64 - 1 then 1546275796 else acc

/-- Signed 64-bit view of an unsigned 64-bit value (how CPython reports
hashes). -/
def u64ToInt (x : Nat) : Int :=
  if x < 2 ^ 63 then (x : Int) else (x : Int) - (M64 : Int)

/-- Unsigned 64-bit view of a signed hash value. -/
def toU64 (n : Int) : Nat := (n % (M64 : Int)).toNat

/-- CPython's `int.__hash__`: reduction modulo `2^61 - 1` preserving sign,
with the reserved value `-1` mapped to `-2`. -/
def pyHashInt (n : Int) : Int :=
  let m : Nat := n.natAbs % (2 ^ 61 - 1)
  let h : Int := if n < 0 then -(m : Int) else (m : Int)
  if h = -1 then -2 else h

/-- CPython string hashes are per-process randomized; we fix one concrete
run's hash function (the only property the development relies on is that
it is a function of the string). -/
def pyHashStr (s : String) : Int :=
  u64ToInt (s.foldl (fun h c => (h * 31 + c.toNat) % M64) 7)

/-- `hash(None)` as one fixed value (CPython uses a constant). -/
def noneHash : Int := 5740354900026072187

/-- The object hash of the one builtin `list` object (id-based). -/
def listBuiltinHash : Int := 4567

mutual

/-- Python `hash()` on our value universe: `None`, ints, bools and strings
hash as in CPython, function objects hash by identity, lists are
unhashable (`Option.none`), and record instances hash per
`HashableRecordClass.__hash__` (records.py:112-114):
`hash(tuple(hash(getattr(self, attr)) for attr in self.__slots__))`. -/
def pyHashVal : Val → Option Int
  | .none => some noneHash
  | .int n => some (pyHashInt n)
  | .bool b => some (if b then 1 else 0)
  | .str s => some (pyHashStr s)
  | .list _ _ => Option.none
  | .listFactory => some listBuiltinHash
  | .lam i _ => some (Int.ofNat i)
  | .inst _ _ req opt flds =>
    (hashFields flds (req ++ dkeys opt)).map (fun hs => u64ToInt (pyTupleHash hs))
termination_by v => (sizeOf v, 1)

/-- The tuple of field hashes of an instance, in slot order (unsigned
views); `Option.none` if a slot is missing or a field is unhashable. -/
def hashFields (flds : List (String × Val)) : List String → Option (List Nat)
  | [] => some []
  | a :: rest =>
    match h : flookup flds a with
    | some v =>
      match pyHashVal v, hashFields flds rest with
      | some hv, some hs => some (toU64 hv :: hs)
      | _, _ => Option.none
    | Option.none => Option.none
termination_by attrs => (sizeOf flds, attrs.length + 2)
decreasing_by
· exact Prod.Lex.left _ _ (by have := flookup_sizeOf_lt h; omega)
· exact Prod.Lex.right _ (by simp)

end

/-- The hash of one `optional_attributes.items()` element `(k, v)`: the
tuple hash of the pair. -/
def itemHash (kv : String × Val) : Option Nat :=
  (pyHashVal kv.2).map (fun h => pyTupleHash [toU64 (pyHashStr kv.1), toU64 h])

/-- CPython `frozenset.__hash__` combines the element hashes with a
commutative XOR-based mix plus the size, making it independent of
iteration order; we model that combination step. -/
def fsetHash (hs : List Nat) : Nat :=
  (hs.foldr (fun h acc => acc ^^^ ((h ^^^ 89869747) * 3644798167 % M64)) 0 + hs.length) % M64

/-- Hash each `(name, default)` item of an optional-attribute dict in
insertion order; `Option.none` as soon as one default is unhashable
(in Python, `frozenset(...items())` would raise `TypeError` there). -/
def collectItemHashes : List (String × Val) → Option (List Nat)
  | [] => some []
  | kv :: rest =>
    match itemHash kv, collectItemHashes rest with
    | some h, some hs => some (h :: hs)
    | _, _ => Option.none

/-- `RecordMeta.__hash__` (records.py:166-169):
`hash((cls.required_attributes, frozenset(cls.optional_attributes.items())))`;
`Option.none` when some optional default is unhashable (in Python the call
would raise `TypeError`). -/
def typeHash (ty : RType) : Option Int :=
  (collectItemHashes ty.optional_attributes).map (fun itemHs =>
    u64ToInt (pyTupleHash
      [pyTupleHash (ty.required_attributes.map (fun s => toU64 (pyHashStr s))),
       fsetHash itemHs]))

mutual

/-- Structural (layout-aware) equality: like `valEq` but without the
object-identity shortcut on instances, and additionally requiring that the
two instances' types store their optional attributes in the same order
(hence lay out `__slots__` identically).  `valEqStrict v w = true` implies
`valEq v w = true` (see `valEqStrict_implies_valEq`), i.e. it is a
strengthening of Python `==`. -/
def valEqStrict : Val → Val → Bool
  | .none, .none => true
  | .int m, .int n => m == n
  | .str s, .str t => s == t
  | .bool a, .bool b => a == b
  | .list _ xs, .list _ ys => valEqStrictList xs ys
  | .listFactory, .listFactory => true
  | .lam i _, .lam j _ => i == j
  | .inst _ _ r1 o1 f1, .inst _ _ r2 o2 f2 =>
      r1 == r2 && dkeys o1 == dkeys o2 && dictStrict o1 o2 &&
        fieldsStrictOn f1 f2 (r1 ++ dkeys o1)
  | _, _ => false
termination_by v w => (sizeOf v + sizeOf w, 1)

def valEqStrictList : List Val → List Val → Bool
  | [], [] => true
  | x :: xs, y :: ys => valEqStrict x y && valEqStrictList xs ys
  | _, _ => false
termination_by xs ys => (sizeOf xs + sizeOf ys, 0)

/-- Per-key strict equality of two dicts with equal key lists. -/
def dictStrict : List (String × Val) → List (String × Val) → Bool
  | [], _ => true
  | (k, v) :: rest, b => lookupStrictB b k v && dictStrict rest b
termination_by a b => (sizeOf a + sizeOf b, 0)

def lookupStrictB : List (String × Val) → String → Val → Bool
  | [], _, _ => false
  | (k', w) :: rest, k, v => if k' = k then valEqStrict v w else lookupStrictB rest k v
termination_by b _ v => (sizeOf v + sizeOf b, 0)

def fieldsStrictOn (f1 f2 : List (String × Val)) : List String → Bool
  | [] => true
  | a :: rest =>
    match h1 : flookup f1 a, h2 : flookup f2 a with
    | some v, some w => valEqStrict v w && fieldsStrictOn f1 f2 rest
    | _, _ => false
termination_by attrs => (sizeOf f1 + sizeOf f2, attrs.length)
decreasing_by
· exact Prod.Lex.left _ _
    (by have := flookup_sizeOf_lt h1; have := flookup_sizeOf_lt h2; omega)
· exact Prod.Lex.right _ (by simp)

end

/-- Two `Option Val` results agreeing up to Python `==`. -/
def optValEq : Option Val → Option Val → Bool
  | some v, some w => valEq v w
  | Option.none, Option.none => true
  | _, _ => false

/-- `getattr` on both sides and compare, `false` when a side is missing
(in Python that raises; on constructed instances it cannot happen). -/
def fieldEqAt (f1 f2 : List (String × Val)) (a : String) : Bool :=
  match flookup f1 a, flookup f2 a with
  | some v, some w => valEq v w
  | _, _ => false

/-! ### Shared helper lemmas -/

theorem flookup_isSome_iff {d : List (String × Val)} {k : String} :
    (∃ v, flookup d k = some v) ↔ k ∈ dkeys d := by
  induction d with
  | nil => simp [flookup, dkeys]
  | cons kv rest ih =>
    obtain ⟨k', w⟩ := kv
    by_cases h : k' = k
    · subst h; simp [flookup, dkeys]
    · simp only [flookup, if_neg h, dkeys, List.map_cons, List.mem_cons]
      rw [show (List.map Prod.fst rest) = dkeys rest from rfl, ih]
      exact ⟨fun hx => Or.inr hx,
             fun hor => hor.elim (fun heq => absurd heq.symm h) id⟩

theorem flookup_mem {d : List (String × Val)} {k : String} {v : Val}
    (h : flookup d k = some v) : (k, v) ∈ d := by
  induction d with
  | nil => simp [flookup] at h
  | cons kv rest ih =>
    obtain ⟨k', w⟩ := kv
    simp only [flookup] at h
    split at h
    · rename_i heq; cases h; simp [heq]
    · simp [ih h]

theorem mem_flookup {d : List (String × Val)} {k : String} {v : Val}
    (hnd : (dkeys d).Nodup) (h : (k, v) ∈ d) : flookup d k = some v := by
  induction d with
  | nil => simp at h
  | cons kv rest ih =>
    obtain ⟨k', w⟩ := kv
    simp only [dkeys, List.map_cons, List.nodup_cons] at hnd
    rcases List.mem_cons.mp h with h1 | h1
    · injection h1 with hk hv
      subst hk; subst hv
      simp [flookup]
    · have hkne : k' ≠ k := by
        intro he
        apply hnd.1
        rw [he]
        exact List.mem_map.mpr ⟨(k, v), h1, rfl⟩
      simpa [flookup, hkne] using ih hnd.2 h1

theorem lookupEqB_iff {b : List (String × Val)} {k : String} {v : Val} :
    lookupEqB b k v = true ↔ ∃ w, flookup b k = some w ∧ valEq v w = true := by
  induction b with
  | nil => simp [lookupEqB, flookup]
  | cons kv rest ih =>
    obtain ⟨k', w⟩ := kv
    by_cases h : k' = k
    · subst h; simp [lookupEqB, flookup]
    · simp [lookupEqB, flookup, h, ih]

theorem dictIncl_iff {a b : List (String × Val)} :
    dictIncl a b = true ↔ ∀ kv ∈ a, lookupEqB b kv.1 kv.2 = true := by
  induction a with
  | nil => simp [dictIncl]
  | cons kv rest ih =>
    obtain ⟨k, v⟩ := kv
    simp [dictIncl, ih, Bool.and_eq_true]

theorem fieldsEqOn_iff {f1 f2 : List (String × Val)} {attrs : List String} :
    fieldsEqOn f1 f2 attrs = true ↔ ∀ a ∈ attrs, fieldEqAt f1 f2 a = true := by
  induction attrs with
  | nil => simp [fieldsEqOn]
  | cons a rest ih =>
    rw [fieldsEqOn]
    constructor
    · intro h
      split at h
      · rename_i v w h1 h2
        simp only [Bool.and_eq_true] at h
        intro x hx
        rcases List.mem_cons.mp hx with rfl | hx
        · simp [fieldEqAt, h1, h2, h.1]
        · exact ih.mp h.2 x hx
      · exact absurd h (by simp)
    · intro h
      have ha := h a (by simp)
      unfold fieldEqAt at ha
      split
      · rename_i v w h1 h2
        rw [h1, h2] at ha
        simp only [Bool.and_eq_true]
        exact ⟨by simpa using ha,
               ih.mpr (fun x hx => h x (List.mem_cons_of_mem a hx))⟩
      · rename_i hbad
        exfalso
        cases hh1 : flookup f1 a with
        | none => rw [hh1] at ha; simp at ha
        | some v =>
          cases hh2 : flookup f2 a with
          | none => rw [hh1, hh2] at ha; simp at ha
          | some w => exact hbad v w hh1 hh2

theorem dedup_append_length {A B : List String} (hA : A.Nodup) (hB : B.Nodup)
    (hdisj : ∀ x ∈ A, x ∉ B) : (A ++ B).dedup.length = A.length + B.length := by
  induction A with
  | nil => simp [List.dedup_eq_self.mpr hB]
  | cons a A' ih =>
    have ha : a ∉ A' ++ B := by
      intro hmem
      rcases List.mem_append.mp hmem with hm | hm
      · exact (List.nodup_cons.mp hA).1 hm
      · exact hdisj a (by simp) hm
    rw [List.cons_append, List.dedup_cons_of_not_mem ha]
    simp only [List.length_cons]
    rw [ih (List.nodup_cons.mp hA).2 (fun x hx => hdisj x (List.mem_cons_of_mem a hx))]
    omega

theorem setattrs_ok_keys {slots : List String} {acc : List (String × Val)}
    {assigns : List (String × Val)} {res : List (String × Val)}
    (h : setattrs slots acc assigns = .ok res) :
    ∀ kv ∈ assigns, slots.contains kv.1 = true := by
  induction assigns generalizing acc with
  | nil => simp
  | cons kv rest ih =>
    obtain ⟨k, v⟩ := kv
    rw [setattrs] at h
    split at h
    · rename_i hc
      intro x hx
      rcases List.mem_cons.mp hx with rfl | hx
      · exact hc
      · exact ih h x hx
    · cases h

/-! ### C2: construction-time error checks -/

/-- **C2.** For every record type: (a) fewer total positional-plus-keyword
arguments than required fields raises the arity `ValueError`
(records.py:37-39, the spec's ArityError); (b) otherwise a keyword naming a
required field already bound positionally (positionals bind required
fields left-to-right) raises the conflict `TypeError` (records.py:41-46,
the spec's ConflictError); (c) otherwise, when the number of distinct
required fields actually supplied differs from the declared count, the
exact-arity `TypeError` is raised (records.py:47-54, the spec's
ArityError).  Each conclusion is an `Except.error`, so no instance is
produced.  The three clauses are checked in this order, matching both the
code and the spec's bullet order. -/
theorem c2_constructor_errors (ty : RType) (args : List Val)
    (kwargs : List (String × Val)) (ctr : Nat) :
    (args.length + kwargs.length < ty.required_attributes.length →
      init ty args kwargs ctr = .error .invalidArguments) ∧
    (¬ args.length + kwargs.length < ty.required_attributes.length →
      (∃ k ∈ dkeys kwargs, k ∈ ty.required_attributes.take args.length) →
      init ty args kwargs ctr = .error .conflict) ∧
    (∀ _hreq : ty.required_attributes.Nodup,
     ∀ _hkw : (dkeys kwargs).Nodup,
     ∀ _hlen : args.length ≤ ty.required_attributes.length,
      ¬ args.length + kwargs.length < ty.required_attributes.length →
      (∀ k ∈ dkeys kwargs, k ∉ ty.required_attributes.take args.length) →
      ((ty.required_attributes.take args.length ++
          (dkeys kwargs).filter (fun k => ty.required_attributes.contains k)).dedup).length
        ≠ ty.required_attributes.length →
      init ty args kwargs ctr = .error .arity) := by
  refine ⟨fun h => ?_, fun h1 h2 => ?_, fun hreq hkw hlen h1 h2 h3 => ?_⟩
  · rw [init]; simp [h]
  · rw [init]
    rw [if_neg h1]
    rw [if_pos]
    rcases h2 with ⟨k, hk, htake⟩
    intro hnil
    have : k ∈ (dkeys kwargs).filter
        (fun k => (ty.required_attributes.take args.length).contains k) := by
      refine List.mem_filter.mpr ⟨hk, ?_⟩
      simpa using htake
    rw [hnil] at this
    simp at this
  · rw [init]
    rw [if_neg h1, if_neg (by
      simp only [ne_eq, not_not]
      refine List.filter_eq_nil_iff.mpr (fun k hk => ?_)
      simpa using h2 k hk)]
    rw [if_pos]
    -- the independently stated distinct-supplied count equals the code's
    have hAnodup : (ty.required_attributes.take args.length).Nodup :=
      (List.take_sublist _ _).nodup hreq
    have hAlen : (ty.required_attributes.take args.length).length = args.length := by
      rw [List.length_take]; omega
    have hBnodup :
        ((dkeys kwargs).filter (fun k => ty.required_attributes.contains k)).Nodup :=
      hkw.filter _
    have hdisj : ∀ x ∈ ty.required_attributes.take args.length,
        x ∉ (dkeys kwargs).filter (fun k => ty.required_attributes.contains k) := by
      intro x hxA hxB
      exact h2 x (List.mem_filter.mp hxB).1 hxA
    have hded := dedup_append_length hAnodup hBnodup hdisj
    intro hcontra
    apply h3
    rw [hded, hAlen]
    rw [List.dedup_eq_self.mpr hBnodup] at hcontra
    omega

/-- **C2 witness**: concrete instances of all three error cases for the
type `Record('R', ['a', 'b'])`. -/
theorem c2_constructor_errors_witness :
    init ⟨"R", ["a", "b"], []⟩ [] [] 0 = .error .invalidArguments ∧
    init ⟨"R", ["a", "b"], []⟩ [.int 1] [("a", .int 2)] 0 = .error .conflict ∧
    init ⟨"R", ["a", "b"], []⟩ [] [("a", .int 1), ("z", .int 2)] 0 = .error .arity := by
  refine ⟨(c2_constructor_errors _ _ _ _).1 (by decide),
          (c2_constructor_errors _ _ _ _).2.1 (by decide) ⟨"a", by decide, by decide⟩,
          (c2_constructor_errors _ _ _ _).2.2 (by decide) (by decide) (by decide)
            (by decide) (by decide) (by decide)⟩

/-! ### C10: unknown keyword arguments -/

/-- **C10.** Constructing with a keyword argument whose name is not a
declared field (not in `__slots__`) never yields an instance: either one
of the three argument checks raises, or the slot assignment
`object.__setattr__` raises `AttributeError` on the closed slot set
(records.py:56-58 together with the `__slots__` layout of
records.py:150-151). -/
theorem c10_unknown_kwarg_never_constructs (ty : RType) (args : List Val)
    (kwargs : List (String × Val)) (ctr : Nat) (k : String)
    (hk : k ∈ dkeys kwargs) (hslots : k ∉ ty.slots) :
    ∃ e, init ty args kwargs ctr = .error e := by
  rw [init]
  split
  · exact ⟨_, rfl⟩
  split
  · exact ⟨_, rfl⟩
  split
  · exact ⟨_, rfl⟩
  rcases hv : setattrs ty.slots [] (ty.required_attributes.zip args ++ kwargs) with e | fs
  · exact ⟨e, by simp [hv]⟩
  · exfalso
    rcases flookup_isSome_iff.mpr hk with ⟨v, hkv⟩
    have hmem : (k, v) ∈ ty.required_attributes.zip args ++ kwargs :=
      List.mem_append_right _ (flookup_mem hkv)
    have hc := setattrs_ok_keys hv (k, v) hmem
    simp at hc
    exact hslots hc

/-- **C10 witness**: `R(5, z=1)` on `Record('R', ['a'])` raises. -/
theorem c10_unknown_kwarg_witness :
    ∃ e, init ⟨"R", ["a"], []⟩ [.int 5] [("z", .int 1)] 0 = .error e :=
  c10_unknown_kwarg_never_constructs _ _ _ _ "z" (by decide) (by decide)

/-! ### C8: state extraction / restoration round-trip -/

/-- **C8 (code bug).** `__getstate__` does produce the full field mapping
(shown concretely for `Name('reqd_value')`, the test's pickled instance),
but `__setstate__` iterates `state.iteritems()`, which does not exist on
Python 3 dicts (the source's shebang is python3 and setup.py declares
Python 3 support), so restoration always raises `AttributeError` and the
specified round-trip never succeeds. -/
theorem c8_roundtrip_always_raises :
    (init ⟨"Name", ["required"], [("name_opt", .bool true)]⟩ [.str "reqd_value"] [] 0
      = .ok (.inst 0 "Name" ["required"] [("name_opt", .bool true)]
              [("required", .str "reqd_value"), ("name_opt", .bool true)], 1)) ∧
    (getstate (.inst 0 "Name" ["required"] [("name_opt", .bool true)]
              [("required", .str "reqd_value"), ("name_opt", .bool true)])
      = some [("required", .str "reqd_value"), ("name_opt", .bool true)]) ∧
    ∀ fresh state, setstate fresh state = .error .attributeError := by
  exact ⟨by rfl, by rfl, fun _ _ => rfl⟩

theorem flookup_insertKV_self {d : List (String × Val)} {k : String} {v : Val} :
    flookup (insertKV d k v) k = some v := by
  induction d with
  | nil => simp [insertKV, flookup]
  | cons kv rest ih =>
    obtain ⟨k', w⟩ := kv
    by_cases h : k' = k
    · subst h; simp [insertKV, flookup]
    · simp [insertKV, h, flookup, ih]

theorem flookup_insertKV_ne {d : List (String × Val)} {k k' : String} {v : Val}
    (h : k' ≠ k) : flookup (insertKV d k v) k' = flookup d k' := by
  have hkk : ¬ (k = k') := fun he => h he.symm
  induction d with
  | nil => simp [insertKV, flookup, hkk]
  | cons kw rest ih =>
    obtain ⟨k'', w⟩ := kw
    by_cases h2 : k'' = k
    · subst h2
      rw [show insertKV ((k'', w) :: rest) k'' v = (k'', v) :: rest from by simp [insertKV]]
      simp [flookup, hkk]
    · rw [show insertKV ((k'', w) :: rest) k v = (k'', w) :: insertKV rest k v from by
        simp [insertKV, h2]]
      by_cases h3 : k'' = k'
      · subst h3; simp [flookup]
      · simp [flookup, h3, ih]

theorem flookup_removeKey_ne {d : List (String × Val)} {k k' : String}
    (h : k' ≠ k) : flookup (removeKey d k) k' = flookup d k' := by
  have hkk : ¬ (k = k') := fun he => h he.symm
  induction d with
  | nil => simp [removeKey, flookup]
  | cons kw rest ih =>
    obtain ⟨k'', w⟩ := kw
    by_cases h2 : k'' = k
    · subst h2
      rw [show removeKey ((k'', w) :: rest) k'' = removeKey rest k'' from by
        simp [removeKey]]
      rw [ih]
      simp [flookup, hkk]
    · rw [show removeKey ((k'', w) :: rest) k = (k'', w) :: removeKey rest k from by
        simp [removeKey, h2]]
      by_cases h3 : k'' = k'
      · subst h3; simp [flookup]
      · simp [flookup, h3, ih]

theorem dkeys_insertKV_mem {d : List (String × Val)} {k k' : String} {v : Val} :
    k' ∈ dkeys (insertKV d k v) ↔ k' ∈ dkeys d ∨ k' = k := by
  induction d with
  | nil => simp [insertKV, dkeys]
  | cons kw rest ih =>
    obtain ⟨k'', w⟩ := kw
    by_cases h : k'' = k
    · subst h
      rw [show insertKV ((k'', w) :: rest) k'' v = (k'', v) :: rest from by simp [insertKV]]
      simp only [dkeys, List.map_cons, List.mem_cons]
      tauto
    · rw [show insertKV ((k'', w) :: rest) k v = (k'', w) :: insertKV rest k v from by
        simp [insertKV, h]]
      simp only [dkeys, List.map_cons, List.mem_cons]
      rw [show List.map Prod.fst (insertKV rest k v) = dkeys (insertKV rest k v) from rfl,
          show List.map Prod.fst rest = dkeys rest from rfl, ih]
      tauto

theorem dkeys_insertKV_nodup {d : List (String × Val)} {k : String} {v : Val}
    (h : (dkeys d).Nodup) : (dkeys (insertKV d k v)).Nodup := by
  induction d with
  | nil => simp [insertKV, dkeys]
  | cons kw rest ih =>
    obtain ⟨k'', w⟩ := kw
    simp only [dkeys, List.map_cons, List.nodup_cons] at h
    by_cases h2 : k'' = k
    · subst h2
      simpa [insertKV, dkeys, List.nodup_cons] using h
    · simp only [insertKV, if_neg h2, dkeys, List.map_cons, List.nodup_cons]
      refine ⟨?_, ih h.2⟩
      rw [show List.map Prod.fst (insertKV rest k v) = dkeys (insertKV rest k v) from rfl]
      rw [dkeys_insertKV_mem]
      rintro (hm | hm)
      · exact h.1 hm
      · exact h2 hm

theorem dictUpdate_nodup {new d : List (String × Val)}
    (h : (dkeys d).Nodup) : (dkeys (dictUpdate d new)).Nodup := by
  induction new generalizing d with
  | nil => simpa [dictUpdate]
  | cons kv rest ih =>
    rw [dictUpdate, List.foldl_cons]
    exact ih (dkeys_insertKV_nodup h)

theorem setattrs_ok_of_keys {slots : List String} {acc assigns : List (String × Val)}
    (h : ∀ kv ∈ assigns, slots.contains kv.1 = true) :
    setattrs slots acc assigns
      = .ok (assigns.foldl (fun fs kv => insertKV fs kv.1 kv.2) acc) := by
  induction assigns generalizing acc with
  | nil => simp [setattrs]
  | cons kv rest ih =>
    obtain ⟨k, v⟩ := kv
    rw [setattrs, if_pos (h (k, v) (by simp)), List.foldl_cons]
    exact ih (fun kv hkv => h kv (List.mem_cons_of_mem _ hkv))

theorem invoke_ctr_le {v : Val} {ctr : Nat} : ctr ≤ (invoke v ctr).2 := by
  cases v <;> simp [invoke]

theorem setDefaults_ctr_mono {kwargKeys : List String}
    {fields opt : List (String × Val)} {ctr : Nat} :
    ctr ≤ (setDefaults kwargKeys fields opt ctr).2 := by
  induction opt generalizing fields ctr with
  | nil => simp [setDefaults]
  | cons kv rest ih =>
    obtain ⟨attr, value⟩ := kv
    rw [setDefaults]
    by_cases h : kwargKeys.contains attr
    · rw [if_pos h]; exact ih
    · rw [if_neg h]
      refine le_trans ?_ ih
      by_cases hc : callable value
      · rw [if_pos hc]; exact invoke_ctr_le
      · rw [if_neg hc]

/-- Lookup in the output of the defaults loop, at a key the loop does not
touch. -/
theorem setDefaults_lookup_skip {kwargKeys : List String}
    {fields opt : List (String × Val)} {ctr : Nat} {f : String}
    (h : f ∈ kwargKeys ∨ f ∉ dkeys opt) :
    flookup (setDefaults kwargKeys fields opt ctr).1 f = flookup fields f := by
  induction opt generalizing fields ctr with
  | nil => simp [setDefaults]
  | cons kv rest ih =>
    obtain ⟨attr, value⟩ := kv
    have hrest : f ∈ kwargKeys ∨ f ∉ dkeys rest := by
      rcases h with h | h
      · exact Or.inl h
      · exact Or.inr (fun hm => h (by simp [dkeys] at hm ⊢; exact Or.inr hm))
    have hne : f ∈ kwargKeys ∨ f ≠ attr := by
      rcases h with h | h
      · exact Or.inl h
      · exact Or.inr (fun he => h (by simp [dkeys, he]))
    rw [setDefaults]
    by_cases hkw : kwargKeys.contains attr
    · rw [if_pos hkw]; exact ih hrest
    · rw [if_neg hkw]
      have hfa : f ≠ attr := by
        rcases hne with hf | hf
        · intro he
          subst he
          exact hkw (by simpa using hf)
        · exact hf
      rw [ih hrest, flookup_insertKV_ne hfa]

/-- Lookup in the output of the defaults loop at an optional attribute `f`
with default `d`, not supplied as a keyword: the non-callable default is
bound as-is; the builtin `list` default is invoked, binding a fresh empty
list whose identity lies in the interval of counters consumed by the loop;
a constant-returning closure binds its (shared) body. -/
theorem setDefaults_lookup_hit {kwargKeys : List String}
    {fields opt : List (String × Val)} {ctr : Nat} {f : String} {d : Val}
    (hnd : (dkeys opt).Nodup) (hmem : (f, d) ∈ opt) (hkw : f ∉ kwargKeys) :
    (callable d = false →
      flookup (setDefaults kwargKeys fields opt ctr).1 f = some d) ∧
    (d = .listFactory →
      ∃ cid, flookup (setDefaults kwargKeys fields opt ctr).1 f
          = some (.list cid []) ∧
        ctr ≤ cid ∧ cid < (setDefaults kwargKeys fields opt ctr).2) ∧
    (∀ i b, d = .lam i b →
      flookup (setDefaults kwargKeys fields opt ctr).1 f = some b) := by
  induction opt generalizing fields ctr with
  | nil => simp at hmem
  | cons kv rest ih =>
    obtain ⟨attr, value⟩ := kv
    simp only [dkeys, List.map_cons, List.nodup_cons] at hnd
    rcases List.mem_cons.mp hmem with hhd | htl
    · injection hhd with h1 h2
      subst h1; subst h2
      have hfr : f ∉ dkeys rest := by simpa [dkeys] using hnd.1
      have hkwc : ¬ kwargKeys.contains f = true := by simpa using hkw
      rw [setDefaults, if_neg hkwc]
      refine ⟨fun hnc => ?_, fun hlf => ?_, fun i b hlam => ?_⟩
      · rw [if_neg (by simp [hnc]), if_neg (by simp [hnc])]
        rw [setDefaults_lookup_skip (Or.inr hfr), flookup_insertKV_self]
      · subst hlf
        have hc : callable Val.listFactory = true := rfl
        rw [if_pos hc, if_pos hc]
        refine ⟨ctr, ?_, le_refl _, ?_⟩
        · rw [show (invoke Val.listFactory ctr).1 = Val.list ctr [] from rfl]
          rw [setDefaults_lookup_skip (Or.inr hfr), flookup_insertKV_self]
        · rw [show (invoke Val.listFactory ctr).2 = ctr + 1 from rfl]
          exact lt_of_lt_of_le (Nat.lt_succ_self ctr) setDefaults_ctr_mono
      · subst hlam
        have hc : callable (Val.lam i b) = true := rfl
        rw [if_pos hc, if_pos hc]
        rw [show (invoke (Val.lam i b) ctr).1 = b from rfl,
            show (invoke (Val.lam i b) ctr).2 = ctr from rfl]
        rw [setDefaults_lookup_skip (Or.inr hfr), flookup_insertKV_self]
    · have hfattr : f ≠ attr := by
        intro he
        subst he
        exact hnd.1 (List.mem_map.mpr ⟨(f, d), htl, rfl⟩)
      rw [setDefaults]
      by_cases hkwa : kwargKeys.contains attr
      · rw [if_pos hkwa]; exact ih hnd.2 htl
      · rw [if_neg hkwa]
        have hres := @ih
          (insertKV fields attr
            (if callable value then (invoke value ctr).1 else value))
          (if callable value then (invoke value ctr).2 else ctr) hnd.2 htl
        refine ⟨hres.1, fun hlf => ?_, hres.2.2⟩
        obtain ⟨cid, hcid, hle, hlt⟩ := hres.2.1 hlf
        refine ⟨cid, hcid, le_trans ?_ hle, hlt⟩
        by_cases hc : callable value
        · rw [if_pos hc]; exact invoke_ctr_le
        · rw [if_neg hc]

/-! ### Lemmas about the `RecordMeta.__new__` promotion/override loops -/

theorem hasKey_of_flookup {d : List (String × Val)} {k : String} {v : Val}
    (h : flookup d k = some v) : hasKey d k = true := by
  have := flookup_mem h
  simp only [hasKey, List.any_eq_true]
  exact ⟨(k, v), this, by simp⟩

theorem promoteStep_required_not_mem {st : MetaState} {a f : String}
    (h : f ∉ st.required) : f ∉ (promoteStep st a).required := by
  rw [promoteStep]
  cases hfl : flookup st.plain a with
  | none => simpa using h
  | some v =>
    simp only
    intro hm
    exact h (List.mem_of_mem_erase hm)

theorem foldl_promote_required_not_mem {attrs : List String} {st : MetaState}
    {f : String} (h : f ∉ st.required) :
    f ∉ (attrs.foldl promoteStep st).required := by
  induction attrs generalizing st with
  | nil => simpa
  | cons a rest ih => exact ih (promoteStep_required_not_mem h)

theorem promoteStep_required_nodup {st : MetaState} {a : String}
    (h : st.required.Nodup) : (promoteStep st a).required.Nodup := by
  rw [promoteStep]
  cases hfl : flookup st.plain a with
  | none => simpa using h
  | some v => simpa using h.erase a

theorem promoteStep_opt_lookup_ne {st : MetaState} {a f : String} (h : f ≠ a) :
    flookup (promoteStep st a).optional f = flookup st.optional f := by
  rw [promoteStep]
  cases hfl : flookup st.plain a with
  | none => simp
  | some v => simpa using flookup_insertKV_ne h

theorem promoteStep_plain_lookup_ne {st : MetaState} {a f : String} (h : f ≠ a) :
    flookup (promoteStep st a).plain f = flookup st.plain f := by
  rw [promoteStep]
  cases hfl : flookup st.plain a with
  | none => simp
  | some v => simpa using flookup_removeKey_ne h

theorem promoteStep_opt_nodup {st : MetaState} {a : String}
    (h : (dkeys st.optional).Nodup) : (dkeys (promoteStep st a).optional).Nodup := by
  rw [promoteStep]
  cases hfl : flookup st.plain a with
  | none => simpa using h
  | some v => simpa using dkeys_insertKV_nodup h

theorem foldl_promote_opt_lookup_preserved {attrs : List String} {st : MetaState}
    {f : String} (h : ∀ a ∈ attrs, f ≠ a) :
    flookup (attrs.foldl promoteStep st).optional f = flookup st.optional f := by
  induction attrs generalizing st with
  | nil => rfl
  | cons a rest ih =>
    rw [List.foldl_cons, ih (fun x hx => h x (List.mem_cons_of_mem a hx)),
      promoteStep_opt_lookup_ne (h a (by simp))]

theorem foldl_promote_opt_nodup {attrs : List String} {st : MetaState}
    (h : (dkeys st.optional).Nodup) :
    (dkeys (attrs.foldl promoteStep st).optional).Nodup := by
  induction attrs generalizing st with
  | nil => simpa
  | cons a rest ih => exact ih (promoteStep_opt_nodup h)

theorem overrideStep_required {st : MetaState} {a : String} :
    (overrideStep st a).required = st.required := by
  rw [overrideStep]
  cases hfl : flookup st.plain a <;> simp

theorem overrideStep_opt_lookup_ne {st : MetaState} {a f : String} (h : f ≠ a) :
    flookup (overrideStep st a).optional f = flookup st.optional f := by
  rw [overrideStep]
  cases hfl : flookup st.plain a with
  | none => simp
  | some v => simpa using flookup_insertKV_ne h

theorem overrideStep_opt_nodup {st : MetaState} {a : String}
    (h : (dkeys st.optional).Nodup) : (dkeys (overrideStep st a).optional).Nodup := by
  rw [overrideStep]
  cases hfl : flookup st.plain a with
  | none => simpa using h
  | some v => simpa using dkeys_insertKV_nodup h

theorem foldl_override_required {attrs : List String} {st : MetaState} :
    (attrs.foldl overrideStep st).required = st.required := by
  induction attrs generalizing st with
  | nil => rfl
  | cons a rest ih => rw [List.foldl_cons, ih, overrideStep_required]

theorem foldl_override_opt_lookup_preserved {attrs : List String} {st : MetaState}
    {f : String} (h : ∀ a ∈ attrs, f ≠ a) :
    flookup (attrs.foldl overrideStep st).optional f = flookup st.optional f := by
  induction attrs generalizing st with
  | nil => rfl
  | cons a rest ih =>
    rw [List.foldl_cons, ih (fun x hx => h x (List.mem_cons_of_mem a hx)),
      overrideStep_opt_lookup_ne (h a (by simp))]

theorem foldl_override_opt_nodup {attrs : List String} {st : MetaState}
    (h : (dkeys st.optional).Nodup) :
    (dkeys (attrs.foldl overrideStep st).optional).Nodup := by
  induction attrs generalizing st with
  | nil => simpa
  | cons a rest ih => exact ih (overrideStep_opt_nodup h)

/-- The promotion fold, at an attribute `f` it actually processes: `f`
ends up out of the required list and bound to its class-dict value in the
optional dict. -/
theorem foldl_promote_hit {attrs : List String} {st : MetaState} {f : String} {v : Val}
    (hnd : attrs.Nodup) (hf : f ∈ attrs)
    (hpl : flookup st.plain f = some v)
    (hreq : st.required.Nodup) :
    flookup (attrs.foldl promoteStep st).optional f = some v ∧
    f ∉ (attrs.foldl promoteStep st).required := by
  induction attrs generalizing st with
  | nil => simp at hf
  | cons a rest ih =>
    have hand := List.nodup_cons.mp hnd
    rcases List.mem_cons.mp hf with rfl | hfr
    · have hstep : promoteStep st f =
          ⟨st.required.erase f, insertKV st.optional f v, removeKey st.plain f⟩ := by
        rw [promoteStep, hpl]
      have hrestne : ∀ x ∈ rest, f ≠ x := by
        intro x hx he
        exact hand.1 (he ▸ hx)
      rw [List.foldl_cons]
      constructor
      · rw [foldl_promote_opt_lookup_preserved hrestne, hstep]
        exact flookup_insertKV_self
      · apply foldl_promote_required_not_mem
        rw [hstep]
        intro hm
        exact ((List.Nodup.mem_erase_iff hreq).mp hm).1 rfl
    · have hafne : f ≠ a := by
        intro he
        exact hand.1 (he ▸ hfr)
      rw [List.foldl_cons]
      exact ih hand.2 hfr
        (by rw [promoteStep_plain_lookup_ne hafne]; exact hpl)
        (promoteStep_required_nodup hreq)

/-- Fields bound by the positional-assignment loop. -/
def posFields (ty : RType) (args : List Val) : List (String × Val) :=
  (ty.required_attributes.zip args).foldl (fun fs kv => insertKV fs kv.1 kv.2) []

/-- Successful purely-positional construction, spelled out. -/
theorem init_positional_ok (ty : RType) (args : List Val) (ctr : Nat)
    (hlen : args.length = ty.required_attributes.length) :
    init ty args [] ctr
      = .ok (.inst ctr ty.name ty.required_attributes ty.optional_attributes
          (setDefaults [] (posFields ty args) ty.optional_attributes (ctr + 1)).1,
        (setDefaults [] (posFields ty args) ty.optional_attributes (ctr + 1)).2) := by
  rw [init]
  rw [if_neg (by simp [hlen]), if_neg (by simp [dkeys]),
    if_neg (by simp [dkeys, hlen])]
  rw [show (ty.required_attributes.zip args ++ ([] : List (String × Val)))
      = ty.required_attributes.zip args from by simp]
  rw [setattrs_ok_of_keys (fun kv hkv => by
    have := (List.of_mem_zip hkv).1
    simp [RType.slots, this])]
  rfl

/-- `recordMetaNew` with a single base, reduced to one `metaBaseStep`. -/
theorem recordMetaNew_single (name : String) (B : RType) (declReq : List String)
    (declOpt plain : List (String × Val)) :
    recordMetaNew name [B] declReq declOpt plain
      = match metaBaseStep ⟨[], declOpt, plain⟩ B with
        | .error e => .error e
        | .ok st => .ok ⟨name, st.required ++ declReq, st.optional⟩ := by
  rw [recordMetaNew]
  cases h : metaBaseStep ⟨[], declOpt, plain⟩ B with
  | error e => rw [List.foldlM_cons, h]; rfl
  | ok st => rw [List.foldlM_cons, h]; rfl

/-! ### C1: promotion of a base's required field -/

/-- **C1.** If a type derived from base `B` supplies a plain class-body
value `v` for a field `f` that `B` declares required, then in the composed
type `f` is absent from the required sequence and present in the optional
dict with default `v`; and constructing the derived type positionally
without `f` succeeds and binds `f` to `v` (for a non-callable `v`).
Hypotheses: `f` is declared once by `B` and not re-declared by the derived
type, and the derived type's declared optionals do not clash with `B`'s
(otherwise composition raises, cf. C6). -/
theorem c1_required_field_promotion
    (B ty : RType) (name : String) (declReq : List String)
    (declOpt plain : List (String × Val)) (f : String) (v : Val)
    (hfB : f ∈ B.required_attributes)
    (hBnd : B.required_attributes.Nodup)
    (hfv : flookup plain f = some v)
    (hfBopt : f ∉ dkeys B.optional_attributes)
    (hclash : ∀ k ∈ dkeys declOpt, k ∉ dkeys B.optional_attributes)
    (hfdeclReq : f ∉ declReq)
    (hdeclOptNd : (dkeys declOpt).Nodup)
    (hvnc : callable v = false)
    (hty : recordMetaNew name [B] declReq declOpt plain = .ok ty) :
    f ∉ ty.required_attributes ∧
    flookup ty.optional_attributes f = some v ∧
    ∀ args ctr, args.length = ty.required_attributes.length →
      (match init ty args [] ctr with
       | .ok (x, _) => getattr x f = some v
       | .error _ => False) := by
  -- evaluate the single-base composition
  rw [recordMetaNew_single] at hty
  rw [metaBaseStep] at hty
  rw [if_neg (by simp), if_neg (by
    simp only [ne_eq, not_not]
    refine List.filter_eq_nil_iff.mpr (fun k hk => ?_)
    simpa using hclash k hk)] at hty
  injection hty with hty'
  subst hty'
  -- name the intermediate states the metaclass loop passes through
  set st1 : MetaState :=
    ⟨[] ++ B.required_attributes, dictUpdate declOpt B.optional_attributes, plain⟩
    with hst1def
  set provided := (B.required_attributes.filter (fun a => hasKey plain a)).dedup
    with hprovdef
  set st2 := provided.foldl promoteStep st1 with hst2def
  set providedOpt :=
    ((dkeys B.optional_attributes).filter (fun a => hasKey st2.plain a)).dedup
    with hpodef
  set st3 := providedOpt.foldl overrideStep st2 with hst3def
  have hst1req : st1.required.Nodup := by
    rw [hst1def]; simpa using hBnd
  have hprov : f ∈ provided := by
    rw [hprovdef]
    exact List.mem_dedup.mpr (List.mem_filter.mpr ⟨hfB, hasKey_of_flookup hfv⟩)
  have hst1pl : flookup st1.plain f = some v := hfv
  have hhit : flookup st2.optional f = some v ∧ f ∉ st2.required := by
    rw [hst2def]
    exact foldl_promote_hit (hprovdef ▸ List.nodup_dedup _) hprov hst1pl hst1req
  have hovr : ∀ a ∈ providedOpt, f ≠ a := by
    intro a ha he
    subst he
    rw [hpodef] at ha
    exact hfBopt ((List.mem_filter.mp (List.mem_dedup.mp ha)).1)
  have hfin : flookup st3.optional f = some v := by
    rw [hst3def, foldl_override_opt_lookup_preserved hovr]
    exact hhit.1
  refine ⟨?_, ?_, ?_⟩
  · intro hm
    rcases List.mem_append.mp hm with hm | hm
    · rw [hst3def, foldl_override_required] at hm
      exact hhit.2 hm
    · exact hfdeclReq hm
  · exact hfin
  · intro args ctr hlen
    rw [init_positional_ok _ _ _ hlen]
    have hoptnd : (dkeys st3.optional).Nodup := by
      rw [hst3def, hst2def, hst1def]
      exact foldl_override_opt_nodup (foldl_promote_opt_nodup (dictUpdate_nodup hdeclOptNd))
    simp only [getattr]
    exact (setDefaults_lookup_hit hoptnd (flookup_mem hfin) (by simp)).1 hvnc

/-- **C1 witness**: `class S(Record('R', ['a'], {'b': 1})): a = 10` makes
`a` optional with default `10`, and `S()` succeeds with `a == 10`. -/
theorem c1_required_field_promotion_witness :
    recordMetaNew "S" [⟨"R", ["a"], [("b", .int 1)]⟩] [] [] [("a", .int 10)]
      = .ok ⟨"S", [], [("b", .int 1), ("a", .int 10)]⟩ ∧
    ("a" ∉ ([] : List String)) ∧
    flookup [("b", .int 1), ("a", .int 10)] "a" = some (.int 10) ∧
    (match init ⟨"S", [], [("b", .int 1), ("a", .int 10)]⟩ [] [] 0 with
     | .ok (x, _) => getattr x "a" = some (.int 10)
     | .error _ => False) := by
  have h := c1_required_field_promotion ⟨"R", ["a"], [("b", .int 1)]⟩
    ⟨"S", [], [("b", .int 1), ("a", .int 10)]⟩ "S" [] [] [("a", .int 10)]
    "a" (.int 10) (by decide) (by decide) rfl (by decide) (by decide)
    (by decide) (by decide) rfl rfl
  exact ⟨rfl, h.1, h.2.1, h.2.2 [] 0 rfl⟩

/-! ### C3: optional-default binding and callable freshness -/

/-- **C3.** In every successful construction, an optional field `f` with
declared default `d` that is not supplied as a keyword is bound as
follows: a non-callable `d` is bound itself (the very same object — shared
across all such instances); a constant-returning closure binds its (shared)
body; the builtin `list` default is invoked freshly, binding a new empty
list whose identity is strictly between the incoming and outgoing
allocation counters — so two instances constructed in sequence never share
it (last conjunct). -/
theorem c3_optional_default_binding (ty : RType) (args : List Val)
    (kwargs : List (String × Val)) (ctr : Nat) (f : String) (d : Val)
    (x : Val) (ctr' : Nat)
    (hnd : (dkeys ty.optional_attributes).Nodup)
    (hmem : (f, d) ∈ ty.optional_attributes)
    (hkw : f ∉ dkeys kwargs)
    (hok : init ty args kwargs ctr = .ok (x, ctr')) :
    (callable d = false → getattr x f = some d) ∧
    (∀ i b, d = .lam i b → getattr x f = some b) ∧
    (d = .listFactory →
      ∃ cid, getattr x f = some (.list cid []) ∧ ctr < cid ∧ cid < ctr') ∧
    (d = .listFactory →
      ∀ args2 kwargs2 x2 ctr2, f ∉ dkeys kwargs2 →
        init ty args2 kwargs2 ctr' = .ok (x2, ctr2) →
        ∀ cid1 cid2, getattr x f = some (.list cid1 []) →
          getattr x2 f = some (.list cid2 []) → cid1 ≠ cid2) := by
  have hkwc : f ∉ dkeys kwargs := hkw
  -- invert the successful construction
  have main : ∀ (args' : List Val) (kwargs' : List (String × Val)) (c : Nat)
      (x' : Val) (c' : Nat), f ∉ dkeys kwargs' →
      init ty args' kwargs' c = .ok (x', c') →
      (callable d = false → getattr x' f = some d) ∧
      (∀ i b, d = .lam i b → getattr x' f = some b) ∧
      (d = .listFactory →
        ∃ cid, getattr x' f = some (.list cid []) ∧ c < cid ∧ cid < c') := by
    intro args' kwargs' c x' c' hkw' hok'
    rw [init] at hok'
    split at hok'
    · cases hok'
    split at hok'
    · cases hok'
    split at hok'
    · cases hok'
    rcases hset : setattrs ty.slots [] (ty.required_attributes.zip args' ++ kwargs')
      with e | fs
    · rw [hset] at hok'; cases hok'
    · rw [hset] at hok'
      injection hok' with h1
      injection h1 with hx hc
      subst hx; subst hc
      have hhit := @setDefaults_lookup_hit (dkeys kwargs') fs _ (c + 1) _ _
        hnd hmem (by simpa using hkw')
      refine ⟨fun hnc => ?_, fun i b hb => ?_, fun hlf => ?_⟩
      · simpa [getattr] using hhit.1 hnc
      · simpa [getattr] using hhit.2.2 i b hb
      · obtain ⟨cid, hcid, hle, hlt⟩ := hhit.2.1 hlf
        exact ⟨cid, by simpa [getattr] using hcid, by omega, hlt⟩
  have h1 := main args kwargs ctr x ctr' hkwc hok
  refine ⟨h1.1, h1.2.1, h1.2.2, fun hlf args2 kwargs2 x2 ctr2 hkw2 hok2
    cid1 cid2 hcid1 hcid2 => ?_⟩
  obtain ⟨c1, hc1, hb1, hb1'⟩ := h1.2.2 hlf
  have h2 := main args2 kwargs2 ctr' x2 ctr2 hkw2 hok2
  obtain ⟨c2, hc2, hb2, hb2'⟩ := h2.2.2 hlf
  rw [hcid1] at hc1
  rw [hcid2] at hc2
  injection hc1 with hc1e
  injection hc2 with hc2e
  injection hc1e with he1 _
  injection hc2e with he2 _
  omega

/-- **C3 witness**: for `Record('L', [], {'lst': list, 'n': 5})`, two
back-to-back constructions bind `n` to the shared literal `5` and `lst` to
two distinct fresh lists (identities 1 and 3). -/
theorem c3_optional_default_binding_witness :
    getattr (.inst 0 "L" [] [("lst", .listFactory), ("n", .int 5)]
      [("lst", .list 1 []), ("n", .int 5)]) "n" = some (.int 5) ∧
    (1 : Nat) ≠ 3 := by
  have hok1 : init ⟨"L", [], [("lst", .listFactory), ("n", .int 5)]⟩ [] [] 0
      = .ok (.inst 0 "L" [] [("lst", .listFactory), ("n", .int 5)]
          [("lst", .list 1 []), ("n", .int 5)], 2) := rfl
  have hok2 : init ⟨"L", [], [("lst", .listFactory), ("n", .int 5)]⟩ [] [] 2
      = .ok (.inst 2 "L" [] [("lst", .listFactory), ("n", .int 5)]
          [("lst", .list 3 []), ("n", .int 5)], 4) := rfl
  constructor
  · exact (c3_optional_default_binding _ [] [] 0 "n" (.int 5) _ 2
      (by decide) (List.mem_cons_of_mem _ (List.mem_cons_self _ _)) (by decide)
      hok1).1 rfl
  · exact (c3_optional_default_binding _ [] [] 0 "lst" .listFactory _ 2
      (by decide) (List.mem_cons_self _ _) (by decide) hok1).2.2.2 rfl [] [] _ 4
      (by decide) hok2 1 3 rfl rfl

/-! ### C6: composition collision checks and optional-default override -/

theorem hasKey_iff_mem {d : List (String × Val)} {k : String} :
    hasKey d k = true ↔ k ∈ dkeys d := by
  simp only [hasKey, List.any_eq_true, dkeys, List.mem_map]
  constructor
  · rintro ⟨kv, hkv, he⟩
    exact ⟨kv, hkv, by simpa using he⟩
  · rintro ⟨kv, hkv, he⟩
    exact ⟨kv, hkv, by simpa using he⟩

theorem dkeys_dictUpdate_mem {new d : List (String × Val)} {k : String} :
    k ∈ dkeys (dictUpdate d new) ↔ k ∈ dkeys d ∨ k ∈ dkeys new := by
  induction new generalizing d with
  | nil => simp [dictUpdate, dkeys]
  | cons kv rest ih =>
    obtain ⟨k', v⟩ := kv
    rw [dictUpdate, List.foldl_cons]
    rw [show List.foldl (fun acc kv => insertKV acc kv.1 kv.2) (insertKV d k' v) rest
        = dictUpdate (insertKV d k' v) rest from rfl]
    rw [ih, dkeys_insertKV_mem]
    simp only [dkeys, List.map_cons, List.mem_cons]
    tauto

theorem overrideStep_plain_lookup_ne {st : MetaState} {a f : String} (h : f ≠ a) :
    flookup (overrideStep st a).plain f = flookup st.plain f := by
  rw [overrideStep]
  cases hfl : flookup st.plain a with
  | none => simp
  | some v => simpa using flookup_removeKey_ne h

/-- The override fold, at an attribute `f` it actually processes: the
class-dict value replaces the default in the optional dict. -/
theorem foldl_override_hit {attrs : List String} {st : MetaState} {f : String} {v : Val}
    (hnd : attrs.Nodup) (hf : f ∈ attrs)
    (hpl : flookup st.plain f = some v) :
    flookup (attrs.foldl overrideStep st).optional f = some v := by
  induction attrs generalizing st with
  | nil => simp at hf
  | cons a rest ih =>
    have hand := List.nodup_cons.mp hnd
    rcases List.mem_cons.mp hf with rfl | hfr
    · have hstep : overrideStep st f =
          { st with optional := insertKV st.optional f v,
                    plain := removeKey st.plain f } := by
        rw [overrideStep, hpl]
      have hrestne : ∀ x ∈ rest, f ≠ x := by
        intro x hx he
        exact hand.1 (he ▸ hx)
      rw [List.foldl_cons, foldl_override_opt_lookup_preserved hrestne, hstep]
      exact flookup_insertKV_self
    · have hafne : f ≠ a := by
        intro he
        exact hand.1 (he ▸ hfr)
      rw [List.foldl_cons]
      exact ih hand.2 hfr (by rw [overrideStep_plain_lookup_ne hafne]; exact hpl)

/-- Two bases with no shared required name and no shared optional name. -/
def basesDisjoint (B1 B2 : RType) : Prop :=
  (∀ k ∈ B1.required_attributes, k ∉ B2.required_attributes) ∧
  (∀ k ∈ dkeys B1.optional_attributes, k ∉ dkeys B2.optional_attributes)

instance (B1 B2 : RType) : Decidable (basesDisjoint B1 B2) := by
  unfold basesDisjoint
  infer_instance

/-- With an empty class dict, one metaclass base step is just the two
collision checks followed by extending the field sets (both promotion and
override loops are vacuous). -/
theorem metaBaseStep_nil_plain {st : MetaState} {B : RType} (h : st.plain = []) :
    metaBaseStep st B =
      if st.required.filter (fun a => B.required_attributes.contains a) ≠ [] then
        .error .requiredClash
      else if (dkeys st.optional).filter
          (fun a => (dkeys B.optional_attributes).contains a) ≠ [] then
        .error .optionalClash
      else .ok ⟨st.required ++ B.required_attributes,
                dictUpdate st.optional B.optional_attributes, st.plain⟩ := by
  rw [metaBaseStep]
  split
  · rfl
  split
  · rfl
  rw [h]
  simp [hasKey]

theorem foldlM_meta_ok_iff (bs : List RType) (st : MetaState) (h : st.plain = []) :
    (bs.foldlM metaBaseStep st).isOk = true ↔
      (List.Pairwise basesDisjoint bs ∧
       ∀ B ∈ bs, (∀ k ∈ st.required, k ∉ B.required_attributes) ∧
                 (∀ k ∈ dkeys st.optional, k ∉ dkeys B.optional_attributes)) := by
  induction bs generalizing st with
  | nil => simp [List.foldlM_nil, pure, Except.pure, Except.isOk, Except.toBool]
  | cons B rest ih =>
    rw [List.foldlM_cons, metaBaseStep_nil_plain h]
    by_cases hreq : st.required.filter (fun a => B.required_attributes.contains a) ≠ []
    · rw [if_pos hreq]
      rw [show ((Except.error DeclErr.requiredClash : Except DeclErr MetaState) >>=
        fun st' => List.foldlM metaBaseStep st' rest)
        = Except.error DeclErr.requiredClash from rfl]
      constructor
      · intro hfalse
        exact absurd hfalse (by simp [Except.isOk, Except.toBool])
      · rintro ⟨_, hall⟩
        exact absurd (List.filter_eq_nil_iff.mpr (fun k hk => by
          simpa using (hall B (List.mem_cons_self _ _)).1 k hk)) hreq
    · rw [if_neg hreq]
      by_cases hopt : (dkeys st.optional).filter
          (fun a => (dkeys B.optional_attributes).contains a) ≠ []
      · rw [if_pos hopt]
        rw [show ((Except.error DeclErr.optionalClash : Except DeclErr MetaState) >>=
          fun st' => List.foldlM metaBaseStep st' rest)
          = Except.error DeclErr.optionalClash from rfl]
        constructor
        · intro hfalse
          exact absurd hfalse (by simp [Except.isOk, Except.toBool])
        · rintro ⟨_, hall⟩
          exact absurd (List.filter_eq_nil_iff.mpr (fun k hk => by
            simpa using (hall B (List.mem_cons_self _ _)).2 k hk)) hopt
      · rw [if_neg hopt]
        rw [show ((Except.ok (⟨st.required ++ B.required_attributes,
            dictUpdate st.optional B.optional_attributes, st.plain⟩ : MetaState)
            : Except DeclErr MetaState) >>=
          fun st' => List.foldlM metaBaseStep st' rest)
          = List.foldlM metaBaseStep ⟨st.required ++ B.required_attributes,
            dictUpdate st.optional B.optional_attributes, st.plain⟩ rest from rfl]
        rw [ih ⟨st.required ++ B.required_attributes,
            dictUpdate st.optional B.optional_attributes, st.plain⟩ (by exact h)]
        simp only [List.pairwise_cons, List.mem_cons, ne_eq, not_not] at hreq hopt ⊢
        constructor
        · rintro ⟨hpw, hall⟩
          have hreq' := List.filter_eq_nil_iff.mp hreq
          have hopt' := List.filter_eq_nil_iff.mp hopt
          refine ⟨⟨fun B' hB' => ?_, hpw⟩, ?_⟩
          · have h1 := (hall B' hB').1
            have h2 := (hall B' hB').2
            constructor
            · intro k hk
              exact h1 k (List.mem_append_right _ hk)
            · intro k hk
              exact h2 k (dkeys_dictUpdate_mem.mpr (Or.inr hk))
          · rintro B' (rfl | hB')
            · constructor
              · intro k hk
                simpa using hreq' k hk
              · intro k hk
                simpa using hopt' k hk
            · have h1 := (hall B' hB').1
              have h2 := (hall B' hB').2
              constructor
              · intro k hk
                exact h1 k (List.mem_append_left _ hk)
              · intro k hk
                exact h2 k (dkeys_dictUpdate_mem.mpr (Or.inl hk))
        · rintro ⟨⟨hphead, hpw⟩, hall⟩
          refine ⟨hpw, fun B' hB' => ?_⟩
          have hstB' := hall B' (Or.inr hB')
          have hBB' := hphead B' hB'
          constructor
          · intro k hk
            rcases List.mem_append.mp hk with hk | hk
            · exact hstB'.1 k hk
            · exact hBB'.1 k hk
          · intro k hk
            rcases dkeys_dictUpdate_mem.mp hk with hk | hk
            · exact hstB'.2 k hk
            · exact hBB'.2 k hk

theorem recordMetaNew_isOk (name : String) (bases : List RType)
    (declReq : List String) (declOpt plain : List (String × Val)) :
    (recordMetaNew name bases declReq declOpt plain).isOk
      = (List.foldlM metaBaseStep ⟨[], declOpt, plain⟩ bases).isOk := by
  rw [recordMetaNew]
  cases List.foldlM metaBaseStep ⟨[], declOpt, plain⟩ bases <;> rfl

/-- **C6 (amended).** Part (a): with no plain class-body attribute
overrides, composition succeeds iff no two different bases share a
required-field name, no two different bases share an optional-field name,
*and* the derived type's own declared optional mapping shares no name with
any base's optional mapping (the extra condition the code enforces, cf.
the counterexample).  Part (b): supplying a value for a base's optional
field as a plain class-body attribute succeeds; the derived value replaces
the base's default and the field stays optional. -/
theorem c6_composition_collisions_and_override :
    (∀ (name : String) (bases : List RType) (declReq : List String)
       (declOpt : List (String × Val)),
      (recordMetaNew name bases declReq declOpt []).isOk = true ↔
        (List.Pairwise basesDisjoint bases ∧
         ∀ B ∈ bases, ∀ k ∈ dkeys declOpt, k ∉ dkeys B.optional_attributes)) ∧
    (∀ (name : String) (B : RType) (declReq : List String)
       (declOpt plain : List (String × Val)) (f : String) (v : Val),
      flookup plain f = some v →
      f ∈ dkeys B.optional_attributes →
      (∀ k ∈ dkeys declOpt, k ∉ dkeys B.optional_attributes) →
      (∀ k ∈ dkeys plain, k ∉ B.required_attributes) →
      f ∉ declReq →
      (recordMetaNew name [B] declReq declOpt plain).isOk = true ∧
      ∀ ty, recordMetaNew name [B] declReq declOpt plain = .ok ty →
        f ∉ ty.required_attributes ∧ flookup ty.optional_attributes f = some v) := by
  constructor
  · intro name bases declReq declOpt
    rw [recordMetaNew_isOk]
    rw [foldlM_meta_ok_iff bases ⟨[], declOpt, []⟩ rfl]
    constructor
    · rintro ⟨hpw, hall⟩
      exact ⟨hpw, fun B hB k hk => (hall B hB).2 k hk⟩
    · rintro ⟨hpw, hopt⟩
      exact ⟨hpw, fun B hB => ⟨fun k hk => by simp at hk,
        fun k hk => hopt B hB k hk⟩⟩
  · intro name B declReq declOpt plain f v hfv hfopt hclash hplreq hfdeclReq
    have hfplain : f ∈ dkeys plain := flookup_isSome_iff.mp ⟨v, hfv⟩
    have hfBreq : f ∉ B.required_attributes := hplreq f hfplain
    -- evaluate the single-base composition
    have hprovempty : (B.required_attributes.filter
        (fun a => hasKey plain a)).dedup = [] := by
      rw [List.filter_eq_nil_iff.mpr (fun k hk => by
        simp only [Bool.not_eq_true]
        rw [show (hasKey plain k = false) ↔ ¬ (hasKey plain k = true) from by simp]
        rw [hasKey_iff_mem]
        exact fun hm => hplreq k hm hk)]
      rfl
    have hcomp : recordMetaNew name [B] declReq declOpt plain
        = .ok ⟨name,
            ([] ++ B.required_attributes) ++ declReq,
            (((dkeys B.optional_attributes).filter
                (fun a => hasKey plain a)).dedup.foldl overrideStep
              ⟨[] ++ B.required_attributes,
               dictUpdate declOpt B.optional_attributes, plain⟩).optional⟩ := by
      rw [recordMetaNew_single, metaBaseStep]
      rw [if_neg (by simp), if_neg (by
        simp only [ne_eq, not_not]
        refine List.filter_eq_nil_iff.mpr (fun k hk => ?_)
        simpa using hclash k hk)]
      simp only [hprovempty, List.foldl_nil]
      rw [foldl_override_required]
    constructor
    · rw [hcomp]; simp [Except.isOk, Except.toBool]
    · intro ty hty
      rw [hcomp] at hty
      injection hty with hty'
      subst hty'
      constructor
      · intro hm
        rcases List.mem_append.mp hm with hm | hm
        · exact hfBreq (by simpa using hm)
        · exact hfdeclReq hm
      · exact foldl_override_hit (List.nodup_dedup _)
          (List.mem_dedup.mpr (List.mem_filter.mpr
            ⟨hfopt, hasKey_of_flookup hfv⟩)) hfv

/-- **C6 counterexample.** A declaration-time error is raised with a
*single* base, when the derived type's own declared optional mapping
shares the name `o` with the base's optional mapping — although no two
different bases clash. -/
theorem c6_single_base_clash_counterexample :
    recordMetaNew "D" [⟨"B", [], [("o", .int 1)]⟩] [] [("o", .int 2)] []
      = .error .optionalClash := rfl

/-- **C6 witness**: part (a) applied to two disjoint bases (composition
succeeds), and part (b) applied to `class S(Record('B', [], {'o': 1})): o = 2`
(override succeeds, default replaced, field stays optional). -/
theorem c6_composition_witness :
    (recordMetaNew "D" [⟨"B1", ["x"], []⟩, ⟨"B2", ["y"], [("z", .int 1)]⟩]
      [] [] []).isOk = true ∧
    (recordMetaNew "S" [⟨"B", [], [("o", .int 1)]⟩] [] [] [("o", .int 2)]).isOk
      = true ∧
    ("o" ∉ (⟨"S", [], [("o", .int 2)]⟩ : RType).required_attributes ∧
      flookup (⟨"S", [], [("o", .int 2)]⟩ : RType).optional_attributes "o"
        = some (.int 2)) := by
  refine ⟨?_, ?_, ?_⟩
  · exact (c6_composition_collisions_and_override.1 "D" _ [] []).mpr
      (by constructor
          · exact List.pairwise_cons.mpr ⟨by decide, by decide⟩
          · decide)
  · exact (c6_composition_collisions_and_override.2 "S" ⟨"B", [], [("o", .int 1)]⟩
      [] [] [("o", .int 2)] "o" (.int 2) rfl (by decide) (by decide) (by decide)
      (by decide)).1
  · exact (c6_composition_collisions_and_override.2 "S" ⟨"B", [], [("o", .int 1)]⟩
      [] [] [("o", .int 2)] "o" (.int 2) rfl (by decide) (by decide) (by decide)
      (by decide)).2 _ rfl

/-! ### C4, C5: instance equality and structural type equality -/

theorem dictEqB_iff {a b : List (String × Val)}
    (ha : (dkeys a).Nodup) (hb : (dkeys b).Nodup) :
    dictEqB a b = true ↔
      ∀ k ∈ dkeys a ++ dkeys b, optValEq (flookup a k) (flookup b k) = true := by
  constructor
  · intro h
    rw [dictEqB, Bool.and_eq_true] at h
    obtain ⟨hlen, hincl⟩ := h
    have hlen' : a.length = b.length := by simpa using hlen
    have hmem : ∀ k ∈ dkeys a, optValEq (flookup a k) (flookup b k) = true := by
      intro k hk
      obtain ⟨v, hv⟩ := flookup_isSome_iff.mpr hk
      have hlk := dictIncl_iff.mp hincl (k, v) (flookup_mem hv)
      obtain ⟨w, hw, hvw⟩ := lookupEqB_iff.mp hlk
      rw [hv, hw]
      exact hvw
    have hsub : dkeys a ⊆ dkeys b := by
      intro k hk
      obtain ⟨v, hv⟩ := flookup_isSome_iff.mpr hk
      obtain ⟨w, hw, _⟩ := lookupEqB_iff.mp (dictIncl_iff.mp hincl (k, v) (flookup_mem hv))
      exact flookup_isSome_iff.mp ⟨w, hw⟩
    have hperm : List.Perm (dkeys a) (dkeys b) :=
      List.Subperm.perm_of_length_le (List.Nodup.subperm ha hsub)
        (by simp [dkeys, hlen'])
    intro k hk
    rcases List.mem_append.mp hk with hk | hk
    · exact hmem k hk
    · exact hmem k (hperm.mem_iff.mpr hk)
  · intro h
    have hsubab : dkeys a ⊆ dkeys b := by
      intro k hk
      obtain ⟨v, hv⟩ := flookup_isSome_iff.mpr hk
      have := h k (List.mem_append_left _ hk)
      rw [hv] at this
      cases hw : flookup b k with
      | none => rw [hw] at this; simp [optValEq] at this
      | some w => exact flookup_isSome_iff.mp ⟨w, hw⟩
    have hsubba : dkeys b ⊆ dkeys a := by
      intro k hk
      obtain ⟨w, hw⟩ := flookup_isSome_iff.mpr hk
      have := h k (List.mem_append_right _ hk)
      rw [hw] at this
      cases hv : flookup a k with
      | none => rw [hv] at this; simp [optValEq] at this
      | some v => exact flookup_isSome_iff.mp ⟨v, hv⟩
    have hperm : List.Perm (dkeys a) (dkeys b) :=
      List.Subperm.antisymm (List.Nodup.subperm ha hsubab) (List.Nodup.subperm hb hsubba)
    rw [dictEqB, Bool.and_eq_true]
    constructor
    · have := hperm.length_eq
      simp only [dkeys, List.length_map] at this
      simpa using this
    · refine dictIncl_iff.mpr (fun kv hkv => ?_)
      obtain ⟨k, v⟩ := kv
      have hv : flookup a k = some v := mem_flookup ha hkv
      have hka : k ∈ dkeys a := flookup_isSome_iff.mp ⟨v, hv⟩
      have := h k (List.mem_append_left _ hka)
      rw [hv] at this
      cases hw : flookup b k with
      | none => rw [hw] at this; simp [optValEq] at this
      | some w =>
        rw [hw] at this
        exact lookupEqB_iff.mpr ⟨w, hw, by simpa [optValEq] using this⟩

/-- **C5.** `RecordMeta.__eq__` is structural: two record types compare
equal iff their required-field sequences are equal and their optional-field
mappings agree extensionally (same keys, `==`-equal default per key) —
independent of the type objects' identity or names.  (The key lists of the
dicts built by the factory and metaclass are duplicate-free, the stated
hypotheses.) -/
theorem c5_type_structural_equality (t u : RType)
    (ht : (dkeys t.optional_attributes).Nodup)
    (hu : (dkeys u.optional_attributes).Nodup) :
    typeEqB t u = true ↔
      (t.required_attributes = u.required_attributes ∧
       ∀ k ∈ dkeys t.optional_attributes ++ dkeys u.optional_attributes,
         optValEq (flookup t.optional_attributes k) (flookup u.optional_attributes k)
           = true) := by
  rw [typeEqB, Bool.and_eq_true, beq_iff_eq, dictEqB_iff ht hu]

/-- **C5 witness**: two independently declared factory types with identical
specifications but different names and identities compare equal. -/
theorem c5_type_structural_equality_witness :
    Record "First" ["a"] [("b", .int 1)] = .ok ⟨"First", ["a"], [("b", .int 1)]⟩ ∧
    Record "Second" ["a"] [("b", .int 1)] = .ok ⟨"Second", ["a"], [("b", .int 1)]⟩ ∧
    typeEqB ⟨"First", ["a"], [("b", .int 1)]⟩ ⟨"Second", ["a"], [("b", .int 1)]⟩
      = true := by
  refine ⟨rfl, rfl, (c5_type_structural_equality _ _ (by decide) (by decide)).mpr
    ⟨rfl, ?_⟩⟩
  intro k hk
  have hk' : k = "b" := by simpa [dkeys] using hk
  subst hk'
  simp [optValEq, flookup, valEq]

/-- **C4 (amended).** `RecordClass.__eq__`: two instances are equal iff
they are the identical object, or their types are *structurally* equal
(`RecordMeta.__eq__`: equal required tuples and `==`-equal optional dicts —
not necessarily the same type object) and every declared field compares
equal pairwise.  (The claim's "exact same type" clause is refuted by
`c4_structural_types_counterexample`.) -/
theorem c4_instance_equality (i1 i2 : Nat) (n1 n2 : String) (r1 r2 : List String)
    (o1 o2 f1 f2 : List (String × Val)) :
    valEq (.inst i1 n1 r1 o1 f1) (.inst i2 n2 r2 o2 f2) = true ↔
      (i1 = i2 ∨
        (typeEqB ⟨n1, r1, o1⟩ ⟨n2, r2, o2⟩ = true ∧
          ∀ a ∈ r1 ++ dkeys o1, fieldEqAt f1 f2 a = true)) := by
  rw [valEq, typeEqB]
  simp [Bool.or_eq_true, Bool.and_eq_true, beq_iff_eq, fieldsEqOn_iff, and_assoc]

/-- **C4 counterexample.** Two instances of *different* record types
(different names, independently created type objects) with the same field
specification and equal field values compare equal — refuting "instances of
different types are never equal". -/
theorem c4_structural_types_counterexample :
    Record "T" ["a"] [] = .ok ⟨"T", ["a"], []⟩ ∧
    Record "U" ["a"] [] = .ok ⟨"U", ["a"], []⟩ ∧
    init ⟨"T", ["a"], []⟩ [.int 1] [] 0
      = .ok (.inst 0 "T" ["a"] [] [("a", .int 1)], 1) ∧
    init ⟨"U", ["a"], []⟩ [.int 1] [] 1
      = .ok (.inst 1 "U" ["a"] [] [("a", .int 1)], 2) ∧
    valEq (.inst 0 "T" ["a"] [] [("a", .int 1)])
          (.inst 1 "U" ["a"] [] [("a", .int 1)]) = true := by
  refine ⟨rfl, rfl, rfl, rfl, ?_⟩
  simp [valEq, fieldsEqOn, dictEqB, dictIncl, flookup, dkeys]

/-! ### C7: CopyRecord — groundwork -/

theorem valEqList_of_forall {xs : List Val} (h : ∀ x ∈ xs, valEq x x = true) :
    valEqList xs xs = true := by
  induction xs with
  | nil => rw [valEqList]
  | cons x rest ih =>
    rw [valEqList, h x (by simp), ih (fun y hy => h y (by simp [hy]))]
    rfl

theorem valEq_refl (v : Val) : valEq v v = true := by
  have key : ∀ (n : Nat) (w : Val), sizeOf w ≤ n → valEq w w = true := by
    intro n
    induction n with
    | zero =>
      intro w hw
      exact absurd hw (by cases w <;> simp)
    | succ n ih =>
      intro w hw
      cases w with
      | list i xs =>
        rw [valEq]
        have hxs : sizeOf xs ≤ n := by simp at hw; omega
        refine valEqList_of_forall (fun x hx => ?_)
        have := List.sizeOf_lt_of_mem hx
        exact ih x (by omega)
      | none => rw [valEq]
      | int m => rw [valEq]; simp
      | str s => rw [valEq]; simp
      | bool b => rw [valEq]; simp
      | listFactory => rw [valEq]
      | lam i b => rw [valEq]; simp
      | inst i c r o f => rw [valEq]; simp
  exact key (sizeOf v) v (le_refl _)

theorem dictEqB_refl {d : List (String × Val)} (h : (dkeys d).Nodup) :
    dictEqB d d = true := by
  refine (dictEqB_iff h h).mpr (fun k _ => ?_)
  cases hf : flookup d k <;> simp [optValEq, hf, valEq_refl]

/-- `copy.copy` produces a `==`-equal value. -/
theorem copyVal_valEq (v : Val) (c : Nat) : valEq (copyVal v c).1 v = true := by
  cases v with
  | list i xs =>
    rw [copyVal]
    rw [show (Val.list c xs, c + 1).1 = Val.list c xs from rfl, valEq]
    exact valEqList_of_forall (fun x _ => valEq_refl x)
  | none => exact valEq_refl _
  | int m => exact valEq_refl _
  | str s => exact valEq_refl _
  | bool b => exact valEq_refl _
  | listFactory => exact valEq_refl _
  | lam i b => exact valEq_refl _
  | inst i cn r o f => exact valEq_refl _

theorem wfVals_mem {flds : List (String × Val)} {k : String} {v : Val}
    (h : wfVals flds = true) (hm : (k, v) ∈ flds) : wfVal v = true := by
  induction flds with
  | nil => simp at hm
  | cons kv rest ih =>
    obtain ⟨k', w⟩ := kv
    rw [wfVals, Bool.and_eq_true] at h
    rcases List.mem_cons.mp hm with he | hm'
    · injection he with h1 h2
      subst h2
      exact h.1
    · exact ih h.2 hm'

theorem wfVal_inst {v : Val} (h : wfVal v = true) (hi : isInst v = true) :
    wfInst v = true := by
  cases v <;> simp [isInst] at hi <;> simpa [wfVal] using h

theorem idsBelowFields_mem {flds : List (String × Val)} {k : String} {v : Val}
    {c : Nat} (h : idsBelowFields flds c = true) (hm : (k, v) ∈ flds) :
    idsBelow v c = true := by
  induction flds with
  | nil => simp at hm
  | cons kv rest ih =>
    obtain ⟨k', w⟩ := kv
    rw [idsBelowFields, Bool.and_eq_true] at h
    rcases List.mem_cons.mp hm with he | hm'
    · injection he with h1 h2
      subst h2
      exact h.1
    · exact ih h.2 hm'

theorem insertKV_append {d : List (String × Val)} {k : String} {v : Val}
    (h : k ∉ dkeys d) : insertKV d k v = d ++ [(k, v)] := by
  induction d with
  | nil => rfl
  | cons kv rest ih =>
    obtain ⟨k', w⟩ := kv
    have hne : k' ≠ k := by
      intro he
      exact h (by simp [dkeys, he])
    rw [insertKV, if_neg hne, ih (fun hm => h (by simp [dkeys]; exact Or.inr (by
      simpa [dkeys] using hm)))]
    rfl

theorem foldl_insertKV_eq_append {kw : List (String × Val)} :
    ∀ {acc : List (String × Val)}, (dkeys kw).Nodup →
    (∀ k ∈ dkeys kw, k ∉ dkeys acc) →
    kw.foldl (fun fs kv => insertKV fs kv.1 kv.2) acc = acc ++ kw := by
  induction kw with
  | nil => intro acc _ _; simp
  | cons kv rest ih =>
    obtain ⟨k, v⟩ := kv
    intro acc hnd hdisj
    simp only [dkeys, List.map_cons, List.nodup_cons] at hnd
    rw [List.foldl_cons]
    rw [show insertKV acc k v = acc ++ [(k, v)] from
      insertKV_append (hdisj k (by simp [dkeys]))]
    rw [ih hnd.2 ?_]
    · simp
    · intro k' hk'
      intro hmem
      rw [show dkeys (acc ++ [(k, v)]) = dkeys acc ++ [k] from by
        simp [dkeys]] at hmem
      rcases List.mem_append.mp hmem with hm | hm
      · exact hdisj k' (by
          simp only [dkeys, List.map_cons, List.mem_cons]
          exact Or.inr hk') hm
      · have : k' = k := by simpa using hm
        subst this
        exact hnd.1 hk'

/-- The positional/keyword assignment fold reproduces a duplicate-free
keyword dict verbatim. -/
theorem foldl_insertKV_self {kw : List (String × Val)}
    (h : (dkeys kw).Nodup) :
    kw.foldl (fun fs kv => insertKV fs kv.1 kv.2) [] = kw := by
  simpa using foldl_insertKV_eq_append h (by simp [dkeys])

theorem setDefaults_all_skip {kwargKeys : List String}
    {fields opt : List (String × Val)} {ctr : Nat}
    (h : ∀ a ∈ dkeys opt, a ∈ kwargKeys) :
    setDefaults kwargKeys fields opt ctr = (fields, ctr) := by
  induction opt generalizing fields ctr with
  | nil => rfl
  | cons kv rest ih =>
    obtain ⟨attr, value⟩ := kv
    rw [setDefaults, if_pos (by simpa using h attr (by simp [dkeys]))]
    refine ih (fun a ha => h a ?_)
    simp only [dkeys, List.map_cons, List.mem_cons]
    exact Or.inr ha

/-- Successful construction from a keyword dict binding exactly the slots:
the instance's field map is the keyword dict itself, and exactly one
object id (the instance's) is consumed. -/
theorem init_kwargs_ok (ty : RType) (kw : List (String × Val)) (ctr : Nat)
    (hkeys : dkeys kw = ty.slots) (hnd : (dkeys kw).Nodup) :
    init ty [] kw ctr
      = .ok (.inst ctr ty.name ty.required_attributes ty.optional_attributes kw,
             ctr + 1) := by
  have hslotsnd : ty.slots.Nodup := hkeys ▸ hnd
  have hparts := List.nodup_append.mp (by
    rw [RType.slots] at hslotsnd
    exact hslotsnd)
  have hreqnd : ty.required_attributes.Nodup := hparts.1
  have hlen : kw.length = ty.required_attributes.length
      + (dkeys ty.optional_attributes).length := by
    have : (dkeys kw).length = ty.slots.length := by rw [hkeys]
    simpa [dkeys, RType.slots] using this
  rw [init]
  rw [if_neg (by simp; omega)]
  rw [if_neg (by simp)]
  rw [if_neg (by
    simp only [ne_eq, not_not, List.length_nil, Nat.zero_add]
    rw [hkeys, RType.slots, List.filter_append]
    rw [List.filter_eq_self.mpr (fun a ha => by simpa using ha)]
    rw [List.filter_eq_nil_iff.mpr (fun a ha => by
      simpa using fun hmem => hparts.2.2 hmem ha)]
    rw [List.append_nil, List.dedup_eq_self.mpr hreqnd])]
  rw [show ty.required_attributes.zip ([] : List Val) ++ kw = kw from by
    simp]
  rw [setattrs_ok_of_keys (fun kv hkv => by
    have : kv.1 ∈ ty.slots := by
      rw [show ty.slots = dkeys kw from hkeys.symm]
      exact List.mem_map.mpr ⟨kv, hkv, rfl⟩
    simpa using this)]
  rw [foldl_insertKV_self hnd]
  have hsd := @setDefaults_all_skip (dkeys kw) kw
    ty.optional_attributes (ctr + 1) (fun a ha => by
      rw [hkeys, RType.slots]
      exact List.mem_append_right _ ha)
  simp only [hsd]

theorem hasKey_false_of_not_mem {d : List (String × Val)} {k : String}
    (h : k ∉ dkeys d) : hasKey d k = false := by
  cases hh : hasKey d k
  · rfl
  · exact absurd (hasKey_iff_mem.mp hh) h

theorem not_mem_of_hasKey_false {d : List (String × Val)} {k : String}
    (h : hasKey d k = false) : k ∉ dkeys d := by
  intro hm
  rw [← hasKey_iff_mem] at hm
  rw [h] at hm
  cases hm

theorem copyVal_ctr_le {v : Val} {c : Nat} : c ≤ (copyVal v c).2 := by
  cases v <;> simp [copyVal]

theorem copyFields_nil {flds acc : List (String × Val)} {c : Nat} :
    copyFields flds [] acc c = .ok (acc, c) := by
  rw [copyFields]

theorem CopyRecord_inst {i : Nat} {cname : String} {req : List String}
    {opt flds overrides : List (String × Val)} {c : Nat} :
    CopyRecord (.inst i cname req opt flds) overrides c =
      match copyFields flds (req ++ dkeys opt) overrides c with
      | .error e => .error e
      | .ok (fields, c') => init ⟨cname, req, opt⟩ [] fields c' := by
  rw [CopyRecord]

/-- Joint specification of `CopyRecord` and its field-copying loop, by
strong induction on size.  A well-formed instance is cloned successfully:
the clone is `==`-equal, is a fresh object (its identity is between the
incoming and outgoing counters), and every record-valued field is replaced
by a clone with a fresh identity `≥ c`. -/
theorem CopyRecord_main : ∀ (n : Nat),
    (∀ (r : Val) (c : Nat), sizeOf r ≤ n → wfInst r = true →
      ∃ y c', CopyRecord r [] c = .ok (y, c') ∧ c < c' ∧
        valEq y r = true ∧ isInst y = true ∧
        (∃ iy, instId y = some iy ∧ c ≤ iy ∧ iy < c') ∧
        (∀ f vv, getattr r f = some vv → isInst vv = true →
          ∃ ww, getattr y f = some ww ∧ isInst ww = true ∧
            ∃ iw, instId ww = some iw ∧ c ≤ iw)) ∧
    (∀ (flds : List (String × Val)), sizeOf flds ≤ n →
      ∀ (slots : List String) (acc : List (String × Val)) (c : Nat),
        slots.Nodup → (∀ f ∈ slots, f ∈ dkeys flds) →
        (∀ f ∈ slots, hasKey acc f = false) → wfVals flds = true →
      ∃ kw c', copyFields flds slots acc c = .ok (kw, c') ∧ c ≤ c' ∧
        dkeys kw = dkeys acc ++ slots ∧
        (∀ g v, flookup acc g = some v → flookup kw g = some v) ∧
        (∀ f ∈ slots, ∃ v w, flookup flds f = some v ∧ flookup kw f = some w ∧
          valEq w v = true ∧
          (isInst v = true → isInst w = true ∧
            ∃ iw, instId w = some iw ∧ c ≤ iw))) := by
  intro n
  induction n with
  | zero =>
    constructor
    · intro r c hr
      exact absurd hr (by cases r <;> simp)
    · intro flds hf
      exact absurd hf (by cases flds <;> simp)
  | succ n ihn =>
    constructor
    · -- CopyRecord on a well-formed instance
      intro r c hr hwf
      cases r with
      | inst i cname req opt flds =>
        rw [wfInst] at hwf
        simp only [Bool.and_eq_true, beq_iff_eq, decide_eq_true_eq] at hwf
        obtain ⟨⟨hslotsnd, hkeys⟩, hvals⟩ := hwf
        have hfsize : sizeOf flds ≤ n := by
          simp at hr; omega
        obtain ⟨kw, cmid, hcf, hle, hkw, _, hvalsspec⟩ :=
          ihn.2 flds hfsize (req ++ dkeys opt) [] c hslotsnd
            (fun f hf => hkeys ▸ hf) (fun f _ => rfl) hvals
        have hkwkeys : dkeys kw = req ++ dkeys opt := by
          simpa [dkeys] using hkw
        rw [CopyRecord_inst, hcf]
        have hinit := init_kwargs_ok ⟨cname, req, opt⟩ kw cmid
          (by rw [hkwkeys]; rfl) (by rw [hkwkeys]; exact hslotsnd)
        refine ⟨.inst cmid cname req opt kw, cmid + 1, ?init, by omega, ?veq, rfl,
          ⟨cmid, rfl, by omega, by omega⟩, ?nested⟩
        case init => exact hinit
        · -- the clone compares equal: structural type equality + field-wise ==
          rw [valEq]
          have hoptnd : (dkeys opt).Nodup := (List.nodup_append.mp hslotsnd).2.1
          rw [show (req == req) = true from by simp]
          rw [dictEqB_refl hoptnd]
          rw [fieldsEqOn_iff.mpr (fun a ha => ?_)]
          · simp
          · obtain ⟨v, w, hv, hw, hvw, _⟩ := hvalsspec a ha
            simp [fieldEqAt, hv, hw, hvw]
        · intro f vv hvv hinst
          have hfslots : f ∈ req ++ dkeys opt := by
            rw [show req ++ dkeys opt = dkeys flds from hkeys.symm]
            exact flookup_isSome_iff.mp ⟨vv, hvv⟩
          obtain ⟨v, w, hv, hw, hvw, hfresh⟩ := hvalsspec f hfslots
          rw [show getattr (.inst i cname req opt flds) f = flookup flds f from rfl,
            hv] at hvv
          injection hvv with hvv
          subst hvv
          obtain ⟨hwinst, iw, hiw, hciw⟩ := hfresh hinst
          exact ⟨w, hw, hwinst, iw, hiw, hciw⟩
      | none => simp [wfInst] at hwf
      | int m => simp [wfInst] at hwf
      | str s => simp [wfInst] at hwf
      | bool b => simp [wfInst] at hwf
      | list id xs => simp [wfInst] at hwf
      | listFactory => simp [wfInst] at hwf
      | lam id b => simp [wfInst] at hwf
    · -- the field-copy loop
      intro flds hfsz slots
      induction slots with
      | nil =>
        intro acc c _ _ _ _
        exact ⟨acc, c, copyFields_nil, le_refl _, by simp [dkeys], fun g v h => h,
          by simp⟩
      | cons f rest ihs =>
        intro acc c hnd hsub hdisj hvals
        have hand := List.nodup_cons.mp hnd
        obtain ⟨v, hv⟩ := flookup_isSome_iff.mpr (hsub f (by simp))
        have hwfv : wfVal v = true := wfVals_mem hvals (flookup_mem hv)
        have hstep : copyFields flds (f :: rest) acc c
            = (match (if isInst v then CopyRecord v [] c else .ok (copyVal v c)) with
               | .error e => .error e
               | .ok (new_value, c') =>
                 copyFields flds rest (insertKV acc f new_value) c') := by
          rw [copyFields, if_neg (by simp [hdisj f (by simp)])]
          split
          · rename_i heq
            rw [hv] at heq
            cases heq
          · rename_i value heq
            rw [hv] at heq
            injection heq with heq'
            subst heq'
            rfl
        rw [hstep]
        -- the copied value: recursive clone for records, shallow copy otherwise
        have hfnotacc : f ∉ dkeys acc := not_mem_of_hasKey_false (hdisj f (by simp))
        have hdisj' : ∀ (w : Val), ∀ g ∈ rest, hasKey (insertKV acc f w) g = false := by
          intro w g hg
          refine hasKey_false_of_not_mem (fun hm => ?_)
          rcases dkeys_insertKV_mem.mp hm with hm | hm
          · exact absurd (hasKey_iff_mem.mpr hm)
              (by rw [hdisj g (by simp [hg])]; simp)
          · exact hand.1 (hm ▸ hg)
        have hkeysins : ∀ (w : Val), dkeys (insertKV acc f w) = dkeys acc ++ [f] := by
          intro w
          rw [insertKV_append hfnotacc]
          simp [dkeys]
        cases hinst : isInst v with
        | true =>
          have hvsz : sizeOf v ≤ n := by
            have := flookup_sizeOf_lt hv
            omega
          obtain ⟨w, cv, hcr, hclt, hveq, hwinst, ⟨iw, hiw, hiwle, _⟩, _⟩ :=
            ihn.1 v c hvsz (wfVal_inst hwfv hinst)
          rw [if_pos rfl, hcr]
          obtain ⟨kw, c', hrest, hle', hkeys', hpres, hspec⟩ :=
            ihs (insertKV acc f w) cv hand.2
              (fun g hg => hsub g (by simp [hg])) (hdisj' w) hvals
          refine ⟨kw, c', hrest, by omega, ?_, ?_, ?_⟩
          · rw [hkeys', hkeysins w, List.append_assoc]
            rfl
          · intro g v0 hg
            have hgf : g ≠ f := by
              intro he
              exact hfnotacc (he ▸ flookup_isSome_iff.mp ⟨v0, hg⟩)
            exact hpres g v0 (by rw [flookup_insertKV_ne hgf]; exact hg)
          · intro f' hf'
            rcases List.mem_cons.mp hf' with rfl | hf'
            · refine ⟨v, w, hv, ?_, hveq, fun _ => ⟨hwinst, iw, hiw, hiwle⟩⟩
              exact hpres f' w flookup_insertKV_self
            · obtain ⟨v', w', hv', hw', hvw', hfr'⟩ := hspec f' hf'
              refine ⟨v', w', hv', hw', hvw', fun hi => ?_⟩
              obtain ⟨hwi, iw', hiw', hciw'⟩ := hfr' hi
              exact ⟨hwi, iw', hiw', by omega⟩
        | false =>
          rw [if_neg (by simp)]
          rcases hcv : copyVal v c with ⟨w, cv⟩
          have hcvle : c ≤ cv := by
            have := @copyVal_ctr_le v c
            rw [hcv] at this
            exact this
          have hveq : valEq w v = true := by
            have := copyVal_valEq v c
            rw [hcv] at this
            exact this
          obtain ⟨kw, c', hrest, hle', hkeys', hpres, hspec⟩ :=
            ihs (insertKV acc f w) cv hand.2
              (fun g hg => hsub g (by simp [hg])) (hdisj' w) hvals
          refine ⟨kw, c', ?_, by omega, ?_, ?_, ?_⟩
          · exact hrest
          · rw [hkeys', hkeysins w, List.append_assoc]
            rfl
          · intro g v0 hg
            have hgf : g ≠ f := by
              intro he
              exact hfnotacc (he ▸ flookup_isSome_iff.mp ⟨v0, hg⟩)
            exact hpres g v0 (by rw [flookup_insertKV_ne hgf]; exact hg)
          · intro f' hf'
            rcases List.mem_cons.mp hf' with rfl | hf'
            · refine ⟨v, w, hv, ?_, hveq, fun hi => absurd hi (by simp [hinst])⟩
              exact hpres f' w flookup_insertKV_self
            · obtain ⟨v', w', hv', hw', hvw', hfr'⟩ := hspec f' hf'
              refine ⟨v', w', hv', hw', hvw', fun hi => ?_⟩
              obtain ⟨hwi, iw', hiw', hciw'⟩ := hfr' hi
              exact ⟨hwi, iw', hiw', by omega⟩

theorem instId_isInst {v : Val} {i : Nat} (h : instId v = some i) :
    isInst v = true := by
  cases v
  case inst => rfl
  all_goals simp [instId] at h

theorem idsBelow_instId {v : Val} {i c : Nat} (h : idsBelow v c = true)
    (hi : instId v = some i) : i < c := by
  cases v
  case inst id cname req opt flds =>
    injection hi with hi'
    subst hi'
    rw [idsBelow] at h
    simp only [Bool.and_eq_true, decide_eq_true_eq] at h
    exact h.1.1
  all_goals simp [instId] at hi

theorem idsBelow_inst_fields {i c : Nat} {cname : String} {req : List String}
    {opt flds : List (String × Val)}
    (h : idsBelow (.inst i cname req opt flds) c = true) :
    i < c ∧ idsBelowFields flds c = true := by
  rw [idsBelow] at h
  simp only [Bool.and_eq_true, decide_eq_true_eq] at h
  exact ⟨h.1.1, h.2⟩

/-- **C7.** On a well-formed record instance `r` whose object identities
all lie below the current allocation counter `c` (true of every live
Python state), `CopyRecord(r)` succeeds, and the returned instance `y`
satisfies: `y == r` (field-wise, through `RecordClass.__eq__`), `y` is a
distinct object from `r`, and every record-valued field of `r` is replaced
in `y` by a recursively produced clone that is a distinct object from the
original nested value.  The source reads `record` only through `getattr`
and performs no attribute writes on it, which the embedding reflects by
being a pure function of `r`: the call cannot mutate `r`. -/
theorem c7_CopyRecord_clones (r : Val) (c : Nat)
    (hwf : wfInst r = true) (hids : idsBelow r c = true) :
    (CopyRecord r [] c).isOk = true ∧
    ∀ y c', CopyRecord r [] c = .ok (y, c') →
      valEq y r = true ∧
      (∀ i j, instId r = some i → instId y = some j → i ≠ j) ∧
      (∀ f v i, getattr r f = some v → instId v = some i →
        ∃ w j, getattr y f = some w ∧ instId w = some j ∧ i ≠ j) := by
  obtain ⟨y, c', hok, hlt, hveq, hyinst, ⟨iy, hiy, hciy, _⟩, hnested⟩ :=
    (CopyRecord_main (sizeOf r)).1 r c (le_refl _) hwf
  constructor
  · rw [hok]; rfl
  · intro y' c'' hok'
    rw [hok] at hok'
    injection hok' with h1
    injection h1 with hy hc
    subst hy
    refine ⟨hveq, ?_, ?_⟩
    · intro i j hi hj
      have hic : i < c := idsBelow_instId hids hi
      have : j = iy := by
        rw [hiy] at hj
        injection hj with hj'
        exact hj'.symm
      omega
    · intro f v i hv hvi
      obtain ⟨w, hw, hwinst, iw, hiw, hciw⟩ :=
        hnested f v hv (instId_isInst hvi)
      have hic : i < c := by
        cases r
        case inst id cname req opt flds =>
          have hfields := (idsBelow_inst_fields hids).2
          exact idsBelow_instId (idsBelowFields_mem hfields
            (flookup_mem (by simpa [getattr] using hv))) hvi
        all_goals simp [getattr] at hv
      exact ⟨w, iw, hw, hiw, by omega⟩

/-- **C7 witness**: a concrete two-level record (a record-valued field)
satisfies the hypotheses, so its `CopyRecord` succeeds. -/
theorem c7_CopyRecord_clones_witness :
    (CopyRecord (.inst 0 "R" ["sub"] []
      [("sub", .inst 1 "S" [] [("n", .int 7)] [("n", .int 7)])]) [] 2).isOk
      = true :=
  (c7_CopyRecord_clones _ 2
    (by simp [wfInst, wfVals, wfVal, dkeys])
    (by simp [idsBelow, idsBelowFields])).1

/-! ### C9: hashing vs equality -/

theorem lookupStrictB_iff {b : List (String × Val)} {k : String} {v : Val} :
    lookupStrictB b k v = true ↔
      ∃ w, flookup b k = some w ∧ valEqStrict v w = true := by
  induction b with
  | nil => simp [lookupStrictB, flookup]
  | cons kv rest ih =>
    obtain ⟨k', w⟩ := kv
    by_cases h : k' = k
    · subst h; simp [lookupStrictB, flookup]
    · simp [lookupStrictB, flookup, h, ih]

/-- The layout-aware structural equality strengthens Python `==`. -/
theorem valEqStrict_implies_valEq {v w : Val}
    (h : valEqStrict v w = true) : valEq v w = true := by
  have key : ∀ (n : Nat),
      (∀ v w : Val, sizeOf v + sizeOf w ≤ n →
        valEqStrict v w = true → valEq v w = true) ∧
      (∀ xs ys : List Val, sizeOf xs + sizeOf ys ≤ n →
        valEqStrictList xs ys = true → valEqList xs ys = true) ∧
      (∀ a b : List (String × Val), sizeOf a + sizeOf b ≤ n →
        dictStrict a b = true → dictIncl a b = true) ∧
      (∀ f1 f2 : List (String × Val), ∀ attrs : List String,
        sizeOf f1 + sizeOf f2 ≤ n →
        fieldsStrictOn f1 f2 attrs = true → fieldsEqOn f1 f2 attrs = true) := by
    intro n
    induction n with
    | zero =>
      refine ⟨fun v w hvw => ?_, fun xs ys hxy => ?_, fun a b hab => ?_,
        fun f1 f2 attrs hf => ?_⟩
      · exact absurd hvw (by cases v <;> simp)
      · exact absurd hxy (by cases xs <;> simp)
      · exact absurd hab (by cases a <;> cases b <;> simp)
      · exact absurd hf (by cases f1 <;> cases f2 <;> simp)
    | succ n ihn =>
      refine ⟨fun v w hvw hst => ?_, fun xs ys hxy hst => ?_,
        fun a b hab hst => ?_, fun f1 f2 attrs hf hst => ?_⟩
      · cases v <;> cases w
        case none.none => rw [valEq]
        case int.int => rw [valEqStrict] at hst; rw [valEq]; exact hst
        case str.str => rw [valEqStrict] at hst; rw [valEq]; exact hst
        case bool.bool => rw [valEqStrict] at hst; rw [valEq]; exact hst
        case listFactory.listFactory => rw [valEq]
        case lam.lam => rw [valEqStrict] at hst; rw [valEq]; exact hst
        case list.list =>
          rename_i i xs j ys
          rw [valEqStrict] at hst
          rw [valEq]
          exact ihn.2.1 xs ys (by simp at hvw; omega) hst
        case inst.inst =>
          rename_i i1 n1 r1 o1 f1 i2 n2 r2 o2 f2
          rw [valEqStrict] at hst
          rw [valEq]
          simp only [Bool.and_eq_true] at hst
          obtain ⟨⟨⟨hr, hk⟩, hd⟩, hf'⟩ := hst
          simp only [Bool.or_eq_true, Bool.and_eq_true]
          refine Or.inr ⟨⟨hr, ?_⟩, ?_⟩
          · rw [dictEqB, Bool.and_eq_true]
            refine ⟨?_, ihn.2.2.1 o1 o2 (by simp at hvw; omega) hd⟩
            have hkk : dkeys o1 = dkeys o2 := by simpa using hk
            simpa [dkeys] using congrArg List.length hkk
          · have hrr : r1 = r2 := by simpa using hr
            exact ihn.2.2.2 f1 f2 _ (by simp at hvw; omega) hf'
        all_goals simp [valEqStrict] at hst
      · cases xs <;> cases ys
        case nil.nil => rw [valEqList]
        case cons.cons =>
          rename_i x xs' y ys'
          rw [valEqStrictList] at hst
          simp only [Bool.and_eq_true] at hst
          rw [valEqList]
          rw [ihn.1 x y (by simp at hxy; omega) hst.1,
            ihn.2.1 xs' ys' (by simp at hxy; omega) hst.2]
          rfl
        all_goals simp [valEqStrictList] at hst
      · cases a with
        | nil => rw [dictIncl]
        | cons kv rest =>
          obtain ⟨k, v⟩ := kv
          rw [dictStrict, Bool.and_eq_true] at hst
          rw [dictIncl, Bool.and_eq_true]
          constructor
          · obtain ⟨w, hw, hsw⟩ := lookupStrictB_iff.mp hst.1
            refine lookupEqB_iff.mpr ⟨w, hw, ?_⟩
            have := flookup_sizeOf_lt hw
            exact ihn.1 v w (by simp at hab; omega) hsw
          · exact ihn.2.2.1 rest b (by simp at hab; omega) hst.2
      · induction attrs with
        | nil => rw [fieldsEqOn]
        | cons a rest iha =>
          rw [fieldsStrictOn] at hst
          rw [fieldsEqOn]
          split at hst
          · rename_i v w h1 h2
            simp only [Bool.and_eq_true] at hst
            rw [ihn.1 v w (by
                have := flookup_sizeOf_lt h1
                have := flookup_sizeOf_lt h2
                omega) hst.1]
            rw [iha hst.2]
            rfl
          · cases hst
  exact (key (sizeOf v + sizeOf w)).1 v w (le_refl _) h

theorem hashFields_cons_eq {flds : List (String × Val)} {a : String}
    {rest : List String} :
    hashFields flds (a :: rest)
      = match flookup flds a with
        | some v =>
          (match pyHashVal v, hashFields flds rest with
           | some hv, some hs => some (toU64 hv :: hs)
           | _, _ => Option.none)
        | Option.none => Option.none := by
  rw [hashFields.eq_def]
  split
  · rename_i heq
    exact absurd heq (by simp)
  · rename_i a' rest' heq
    injection heq with h1 h2
    subst h1; subst h2
    split
    · rename_i v hfl
      rw [hfl]
    · rename_i hfl
      rw [hfl]

/-- Python hashing respects the layout-aware structural equality: strictly
equal values have equal hashes (both `Option.none` for unhashables). -/
theorem pyHashVal_respects_strict : ∀ (n : Nat),
    (∀ v w : Val, sizeOf v + sizeOf w ≤ n → valEqStrict v w = true →
      pyHashVal v = pyHashVal w) ∧
    (∀ (f1 f2 : List (String × Val)) (attrs : List String),
      sizeOf f1 + sizeOf f2 ≤ n → fieldsStrictOn f1 f2 attrs = true →
      hashFields f1 attrs = hashFields f2 attrs) := by
  intro n
  induction n with
  | zero =>
    refine ⟨fun v w hvw => ?_, fun f1 f2 attrs hf => ?_⟩
    · exact absurd hvw (by cases v <;> simp)
    · exact absurd hf (by cases f1 <;> cases f2 <;> simp)
  | succ n ihn =>
    refine ⟨fun v w hvw hst => ?_, fun f1 f2 attrs hf hst => ?_⟩
    · cases v <;> cases w
      case none.none => rfl
      case int.int =>
        rename_i m m'
        rw [valEqStrict] at hst
        rw [show m = m' from by simpa using hst]
      case str.str =>
        rename_i s s'
        rw [valEqStrict] at hst
        rw [show s = s' from by simpa using hst]
      case bool.bool =>
        rename_i b b'
        rw [valEqStrict] at hst
        rw [show b = b' from by simpa using hst]
      case listFactory.listFactory => rfl
      case lam.lam =>
        rename_i i b j b'
        rw [valEqStrict] at hst
        rw [pyHashVal, pyHashVal, show i = j from by simpa using hst]
      case list.list => rw [pyHashVal, pyHashVal]
      case inst.inst =>
        rename_i i1 n1 r1 o1 fl1 i2 n2 r2 o2 fl2
        rw [valEqStrict] at hst
        simp only [Bool.and_eq_true] at hst
        obtain ⟨⟨⟨hr, hk⟩, _⟩, hf'⟩ := hst
        rw [pyHashVal, pyHashVal]
        have hrr : r1 = r2 := by simpa using hr
        have hkk : dkeys o1 = dkeys o2 := by simpa using hk
        rw [ihn.2 fl1 fl2 (r1 ++ dkeys o1) (by simp at hvw; omega) hf']
        rw [hrr, hkk]
      all_goals simp [valEqStrict] at hst
    · induction attrs with
      | nil => rw [hashFields.eq_def, hashFields.eq_def]
      | cons a rest iha =>
        rw [fieldsStrictOn] at hst
        split at hst
        · rename_i v w h1 h2
          simp only [Bool.and_eq_true] at hst
          rw [@hashFields_cons_eq f1 a rest, @hashFields_cons_eq f2 a rest,
            h1, h2]
          show (match pyHashVal v, hashFields f1 rest with
                | some hv, some hs => some (toU64 hv :: hs)
                | _, _ => Option.none)
              = (match pyHashVal w, hashFields f2 rest with
                | some hv, some hs => some (toU64 hv :: hs)
                | _, _ => Option.none)
          rw [ihn.1 v w (by
              have := flookup_sizeOf_lt h1
              have := flookup_sizeOf_lt h2
              omega) hst.1]
          rw [iha hst.2]
        · cases hst

theorem dictStrict_iff {a b : List (String × Val)} :
    dictStrict a b = true ↔ ∀ kv ∈ a, lookupStrictB b kv.1 kv.2 = true := by
  induction a with
  | nil => simp [dictStrict]
  | cons kv rest ih =>
    obtain ⟨k, v⟩ := kv
    rw [dictStrict, Bool.and_eq_true, ih]
    constructor
    · rintro ⟨h1, h2⟩ kv hkv
      rcases List.mem_cons.mp hkv with rfl | hkv
      · exact h1
      · exact h2 kv hkv
    · intro h
      exact ⟨h (k, v) (List.mem_cons_self _ _),
        fun kv hkv => h kv (List.mem_cons_of_mem _ hkv)⟩

theorem dictEqB_keys_perm {a b : List (String × Val)}
    (ha : (dkeys a).Nodup) (h : dictEqB a b = true) :
    List.Perm (dkeys a) (dkeys b) := by
  rw [dictEqB, Bool.and_eq_true] at h
  obtain ⟨hlen, hincl⟩ := h
  have hlen1 : a.length = b.length := by simpa using hlen
  have hsub : dkeys a ⊆ dkeys b := by
    intro k hk
    obtain ⟨v, hv⟩ := flookup_isSome_iff.mpr hk
    obtain ⟨w, hw, _⟩ :=
      lookupEqB_iff.mp (dictIncl_iff.mp hincl (k, v) (flookup_mem hv))
    exact flookup_isSome_iff.mp ⟨w, hw⟩
  exact List.Subperm.perm_of_length_le (List.Nodup.subperm ha hsub)
    (by simp [dkeys, hlen1])

theorem itemHash_congr {k : String} {v w : Val}
    (h : valEqStrict v w = true) : itemHash (k, v) = itemHash (k, w) := by
  simp only [itemHash]
  rw [(pyHashVal_respects_strict (sizeOf v + sizeOf w)).1 v w le_rfl h]

theorem map_itemHash_eq_keys_map {l : List (String × Val)}
    (h : (dkeys l).Nodup) :
    l.map itemHash
      = (dkeys l).map (fun k => (flookup l k).bind (fun v => itemHash (k, v))) := by
  induction l with
  | nil => rfl
  | cons kv rest ih =>
    obtain ⟨k, v⟩ := kv
    simp only [dkeys, List.map] at h ⊢
    rw [List.nodup_cons] at h
    obtain ⟨hk, hrest⟩ := h
    have hhead : (flookup ((k, v) :: rest) k).bind (fun w => itemHash (k, w))
        = itemHash (k, v) := by
      rw [flookup]
      simp
    have htail : ∀ a ∈ rest.map Prod.fst,
        (flookup ((k, v) :: rest) a).bind (fun w => itemHash (a, w))
          = (flookup rest a).bind (fun w => itemHash (a, w)) := by
      intro a hamem
      have hne : k ≠ a := fun he => hk (he ▸ hamem)
      rw [flookup, if_neg hne]
    rw [hhead, List.map_congr_left htail]
    have ih2 := ih hrest
    simp only [dkeys] at ih2
    rw [ih2]

theorem itemHash_maps_perm {a b : List (String × Val)}
    (ha : (dkeys a).Nodup) (hb : (dkeys b).Nodup)
    (heq : dictEqB a b = true) (hstrict : dictStrict a b = true) :
    List.Perm (a.map itemHash) (b.map itemHash) := by
  have hperm := dictEqB_keys_perm ha heq
  have hpt : ∀ k ∈ dkeys a,
      (flookup a k).bind (fun v => itemHash (k, v))
        = (flookup b k).bind (fun v => itemHash (k, v)) := by
    intro k hk
    obtain ⟨v, hv⟩ := flookup_isSome_iff.mpr hk
    obtain ⟨w, hw, hvw⟩ :=
      lookupStrictB_iff.mp (dictStrict_iff.mp hstrict (k, v) (flookup_mem hv))
    rw [hv, hw]
    exact itemHash_congr hvw
  have e1 : a.map itemHash
      = (dkeys a).map (fun k => (flookup b k).bind (fun v => itemHash (k, v))) := by
    rw [map_itemHash_eq_keys_map ha]
    exact List.map_congr_left hpt
  have e2 : b.map itemHash
      = (dkeys b).map (fun k => (flookup b k).bind (fun v => itemHash (k, v))) :=
    map_itemHash_eq_keys_map hb
  rw [e1, e2]
  exact hperm.map _

theorem collectItemHashes_some_map {l : List (String × Val)} {hs : List Nat}
    (h : collectItemHashes l = some hs) : l.map itemHash = hs.map some := by
  induction l generalizing hs with
  | nil =>
    rw [collectItemHashes] at h
    injection h with h
    subst h
    rfl
  | cons kv rest ih =>
    rw [collectItemHashes] at h
    cases hkv : itemHash kv <;> rw [hkv] at h
    · simp at h
    · rename_i x
      cases hrest : collectItemHashes rest <;> rw [hrest] at h
      · simp at h
      · rename_i tl
        simp only [Option.some.injEq] at h
        subst h
        rw [List.map_cons, List.map_cons, hkv, ih hrest]

theorem collectItemHashes_none_iff {l : List (String × Val)} :
    collectItemHashes l = Option.none ↔ Option.none ∈ l.map itemHash := by
  induction l with
  | nil => simp [collectItemHashes]
  | cons kv rest ih =>
    rw [collectItemHashes, List.map_cons]
    cases hkv : itemHash kv with
    | none =>
      simp [hkv]
    | some x =>
      cases hrest : collectItemHashes rest with
      | none =>
        constructor
        · intro _
          exact List.mem_cons_of_mem _ (ih.mp hrest)
        · intro _
          rfl
      | some tl =>
        simp [hkv, hrest, ← ih]

def optMix : List (Option Nat) → Nat
  | [] => 0
  | Option.none :: rest => optMix rest
  | some h :: rest => optMix rest ^^^ ((h ^^^ 89869747) * 3644798167 % M64)

theorem optMix_perm {l1 l2 : List (Option Nat)} (h : List.Perm l1 l2) :
    optMix l1 = optMix l2 := by
  induction h with
  | nil => rfl
  | cons x _ ih => cases x <;> rw [optMix, optMix, ih]
  | swap x y l =>
    cases x with
    | none => cases y <;> rfl
    | some h1 =>
      cases y with
      | none => rfl
      | some h2 =>
        show (optMix l ^^^ _) ^^^ _ = (optMix l ^^^ _) ^^^ _
        rw [Nat.xor_assoc, Nat.xor_assoc,
          Nat.xor_comm ((h2 ^^^ 89869747) * 3644798167 % M64)
            ((h1 ^^^ 89869747) * 3644798167 % M64)]
  | trans _ _ ih1 ih2 => exact ih1.trans ih2

theorem optMix_map_some {hs : List Nat} :
    optMix (hs.map some)
      = hs.foldr (fun h acc => acc ^^^ ((h ^^^ 89869747) * 3644798167 % M64)) 0 := by
  induction hs with
  | nil => rfl
  | cons h rest ih => simp [optMix, ih]

theorem fsetHash_perm_of_maps {a b : List (String × Val)}
    (hperm : List.Perm (a.map itemHash) (b.map itemHash)) :
    (collectItemHashes a).map fsetHash = (collectItemHashes b).map fsetHash := by
  cases ca : collectItemHashes a with
  | none =>
    have hmem : Option.none ∈ b.map itemHash :=
      hperm.mem_iff.mp (collectItemHashes_none_iff.mp ca)
    rw [collectItemHashes_none_iff.mpr hmem]
  | some hsa =>
    cases cb : collectItemHashes b with
    | none =>
      have hmem : Option.none ∈ a.map itemHash :=
        hperm.mem_iff.mpr (collectItemHashes_none_iff.mp cb)
      rw [collectItemHashes_some_map ca] at hmem
      obtain ⟨x, _, hx⟩ := List.mem_map.mp hmem
      exact absurd hx (by simp)
    | some hsb =>
      have hm : List.Perm (hsa.map some) (hsb.map some) := by
        rw [← collectItemHashes_some_map ca, ← collectItemHashes_some_map cb]
        exact hperm
      have hfold : optMix (hsa.map some) = optMix (hsb.map some) := optMix_perm hm
      rw [optMix_map_some, optMix_map_some] at hfold
      have hlen : hsa.length = hsb.length := by
        have := hm.length_eq
        simpa using this
      show some (fsetHash hsa) = some (fsetHash hsb)
      rw [fsetHash, fsetHash, hfold, hlen]

/-- C9 counterexample: two record types `T` and `U` with the same optional
fields declared in opposite orders are structurally equal (`T == U`), and
the instances built from their defaults compare `==`-equal, yet their
hashes differ: `HashableRecordClass.__hash__` (records.py:112-114) tuples
the field hashes in `__slots__` order, which differs between the two
types, so `x == y` does not imply `hash(x) == hash(y)`. -/
theorem c9_equal_instances_unequal_hashes :
    match init ⟨"T", [], [("a", Val.int 1), ("b", Val.int 2)]⟩ [] [] 0,
          init ⟨"U", [], [("b", Val.int 2), ("a", Val.int 1)]⟩ [] [] 0 with
    | .ok (x, _), .ok (y, _) =>
        typeEqB ⟨"T", [], [("a", Val.int 1), ("b", Val.int 2)]⟩
            ⟨"U", [], [("b", Val.int 2), ("a", Val.int 1)]⟩ = true ∧
        valEq x y = true ∧ pyHashVal x ≠ pyHashVal y
    | _, _ => False := by
  show typeEqB ⟨"T", [], [("a", Val.int 1), ("b", Val.int 2)]⟩
        ⟨"U", [], [("b", Val.int 2), ("a", Val.int 1)]⟩ = true ∧
      valEq (Val.inst 0 "T" [] [("a", Val.int 1), ("b", Val.int 2)]
          [("a", Val.int 1), ("b", Val.int 2)])
        (Val.inst 0 "U" [] [("b", Val.int 2), ("a", Val.int 1)]
          [("b", Val.int 2), ("a", Val.int 1)]) = true ∧
      pyHashVal (Val.inst 0 "T" [] [("a", Val.int 1), ("b", Val.int 2)]
          [("a", Val.int 1), ("b", Val.int 2)])
        ≠ pyHashVal (Val.inst 0 "U" [] [("b", Val.int 2), ("a", Val.int 1)]
          [("b", Val.int 2), ("a", Val.int 1)])
  refine ⟨?_, ?_, ?_⟩
  · simp [typeEqB, dictEqB, dictIncl, lookupEqB, valEq, flookup, dkeys]
  · simp [valEq, fieldsEqOn, dictEqB, dictIncl, lookupEqB, flookup, dkeys]
  · rw [pyHashVal, pyHashVal]
    simp only [dkeys, List.map_cons, List.map_nil, List.nil_append]
    simp [hashFields_cons_eq, hashFields, flookup, pyHashVal]
    decide

/-- C9 (amended). Hashing is consistent with equality once the slot layout
is aligned: (a) if two instances are equal under the layout-aware
strengthening of `==` (strict structural equality: same field values per
slot *and* the two types store their optional attributes in the same
order, recursively), then they are `==`-equal and their
`HashableRecordClass.__hash__` values agree; and (b) if two record types
are structurally equal (`RecordMeta.__eq__`) with duplicate-free optional
names and layout-aligned (strictly equal) default values, then their
`RecordMeta.__hash__` values agree — the type hash goes through
`frozenset(optional_attributes.items())`, whose XOR-based combination is
insertion-order-independent.  Without the layout condition part (a) fails
(see the counterexample). -/
theorem c9_hash_consistency :
    (∀ x y : Val, valEqStrict x y = true →
      valEq x y = true ∧ pyHashVal x = pyHashVal y) ∧
    (∀ T U : RType,
      (dkeys T.optional_attributes).Nodup →
      (dkeys U.optional_attributes).Nodup →
      typeEqB T U = true →
      dictStrict T.optional_attributes U.optional_attributes = true →
      typeHash T = typeHash U) := by
  constructor
  · intro x y h
    exact ⟨valEqStrict_implies_valEq h,
      (pyHashVal_respects_strict (sizeOf x + sizeOf y)).1 x y le_rfl h⟩
  · intro T U hTn hUn hTE hstr
    rw [typeEqB, Bool.and_eq_true] at hTE
    obtain ⟨hreq, hdict⟩ := hTE
    have hreq2 : T.required_attributes = U.required_attributes := by simpa using hreq
    have hperm := itemHash_maps_perm hTn hUn hdict hstr
    have hfs := fsetHash_perm_of_maps hperm
    have hT : typeHash T = Option.map
        (fun h => u64ToInt (pyTupleHash
          [pyTupleHash (T.required_attributes.map (fun s => toU64 (pyHashStr s))), h]))
        (Option.map fsetHash (collectItemHashes T.optional_attributes)) := by
      rw [typeHash, Option.map_map]
      rfl
    have hU : typeHash U = Option.map
        (fun h => u64ToInt (pyTupleHash
          [pyTupleHash (U.required_attributes.map (fun s => toU64 (pyHashStr s))), h]))
        (Option.map fsetHash (collectItemHashes U.optional_attributes)) := by
      rw [typeHash, Option.map_map]
      rfl
    rw [hT, hU, hreq2, hfs]

/-- C9 witness: part (a) applied to a pair of strictly equal int values,
and part (b) applied to two independently declared, structurally equal
types with identically laid-out optional defaults. -/
theorem c9_hash_consistency_witness :
    (valEqStrict (Val.int 3) (Val.int 3) = true ∧
      valEq (Val.int 3) (Val.int 3) = true ∧
      pyHashVal (Val.int 3) = pyHashVal (Val.int 3)) ∧
    ((dkeys (⟨"A", ["r"], [("o", Val.int 5)]⟩ : RType).optional_attributes).Nodup ∧
      typeEqB ⟨"A", ["r"], [("o", Val.int 5)]⟩ ⟨"B", ["r"], [("o", Val.int 5)]⟩ = true ∧
      dictStrict [("o", Val.int 5)] [("o", Val.int 5)] = true ∧
      typeHash ⟨"A", ["r"], [("o", Val.int 5)]⟩
        = typeHash ⟨"B", ["r"], [("o", Val.int 5)]⟩) := by
  have h1 : valEqStrict (Val.int 3) (Val.int 3) = true := by simp [valEqStrict]
  have hTE : typeEqB (⟨"A", ["r"], [("o", Val.int 5)]⟩ : RType)
      ⟨"B", ["r"], [("o", Val.int 5)]⟩ = true := by
    simp [typeEqB, dictEqB, dictIncl, lookupEqB, valEq]
  have hstr : dictStrict [("o", Val.int 5)] [("o", Val.int 5)] = true := by
    simp [dictStrict, lookupStrictB, valEqStrict]
  obtain ⟨hq, hh⟩ := c9_hash_consistency.1 (Val.int 3) (Val.int 3) h1
  exact ⟨⟨h1, hq, hh⟩, by decide, hTE, hstr,
    c9_hash_consistency.2 ⟨"A", ["r"], [("o", Val.int 5)]⟩
      ⟨"B", ["r"], [("o", Val.int 5)]⟩ (by decide) (by decide) hTE hstr⟩

end MutableRecords
